import Mathlib

/-
  Verification development for the SQL data-lineage visualizer's layout core.

  The definitions below are a shallow embedding of the layout engine found in
  the repository's `LineageGraph` component (`nodeDepths`, the coordinate
  assignment effect, `getColumnYOffset`, `getEdgeStyle`, `handleNodeDrag` and
  the per-edge geometry of the render function) together with the data model
  of `types.ts`.  JavaScript `Map`s are embedded either as association lists
  (where the value is mutated arithmetically) or as functions
  `String → Option _` (where only point lookups are performed); `Set`s are
  membership lists.  The two worklist loops (the component BFS and the
  topological queue of the depth pass) are embedded structurally with an
  explicit step budget that provably dominates the number of iterations the
  JavaScript `while` loop performs; theorems below show the queues drain
  within that budget, so the embedded functions compute exactly what the
  source loops compute.  Pixel arithmetic is embedded over ℚ (all source
  arithmetic is addition, subtraction, multiplication and halving of exact
  values, which IEEE doubles and ℚ agree on for these magnitudes).
-/

namespace Lineage

/-! ## Data model (`types.ts`) -/

/-- `Column` of `types.ts`: a named, typed column row of a node box. -/
structure Column where
  name : String
  type : String
deriving DecidableEq, Repr

/-- `NodeType` enum of `types.ts`. -/
inductive NodeType where
  | Source | Table | Model | View | CTE
deriving DecidableEq, Repr

/-- `Node` of `types.ts`: an entity box with an ordered column list. -/
structure Node where
  id : String
  name : String
  type : NodeType
  columns : List Column
deriving DecidableEq, Repr

/-- `Edge` of `types.ts`: a directed column-to-column dependency. -/
structure Edge where
  sourceNodeId : String
  sourceColumn : String
  targetNodeId : String
  targetColumn : String
deriving DecidableEq, Repr

/-- `LineageData` of `types.ts`. -/
structure LineageData where
  nodes : List Node
  edges : List Edge
deriving DecidableEq, Repr

/-! ## Generic helpers -/

/-- Stable insertion of `a` into `l` by a natural-number sort key: `a` goes in
front of the first element whose key is `≥ key a`.  Used to embed
`Array.prototype.sort` with a numeric comparator, which ES2019 requires to be
a stable ascending sort. -/
def insertByKey (key : α → Nat) (a : α) : List α → List α
  | [] => [a]
  | b :: l => if key a ≤ key b then a :: b :: l else b :: insertByKey key a l

/-- Stable sort by a natural-number key (insertion sort). -/
def sortByKey (key : α → Nat) : List α → List α
  | [] => []
  | a :: l => insertByKey key a (sortByKey key l)

/-- The ids of a node list. -/
def nodeIds (nodes : List Node) : List String := nodes.map (fun n => n.id)

/-- Helper for `nodeOrder`: index of the node with a given id, counting from
`i`; the last occurrence wins, matching repeated `Map.set` calls. -/
def nodeOrderFrom : Nat → List Node → String → Option Nat
  | _, [], _ => none
  | i, n :: rest, id =>
    match nodeOrderFrom (i + 1) rest id with
    | some j => some j
    | none => if n.id = id then some i else none

/-- The `nodeOrder` map of `nodeDepths`:
`data.nodes.forEach((node, index) => nodeOrder.set(node.id, index))`. -/
def nodeOrder (nodes : List Node) (id : String) : Option Nat :=
  nodeOrderFrom 0 nodes id

/-- `nodeOrder.get(x) || 0` / `nodeOrder.get(x) ?? 0` as used by every sort
comparator in the source (for index `0` the two coalescing forms agree). -/
def orderKey (nodes : List Node) (id : String) : Nat :=
  (nodeOrder nodes id).getD 0

/-! ## Component decomposition (`nodeDepths`, step 1) -/

/-- Contribution of the edge list to the undirected adjacency list of `u`:
each edge pushes its target onto the source's list and its source onto the
target's list, in edge order. -/
def undirAdjList (edges : List Edge) (u : String) : List String :=
  match edges with
  | [] => []
  | e :: rest =>
    ((if e.sourceNodeId = u then [e.targetNodeId] else []) ++
      (if e.targetNodeId = u then [e.sourceNodeId] else [])) ++ undirAdjList rest u

/-- The undirected adjacency map `adj` of `nodeDepths`; only node ids carry an
entry (`adj.get(...)?.push` is a no-op for unknown ids). -/
def undirAdj (data : LineageData) (u : String) : List String :=
  if u ∈ nodeIds data.nodes then undirAdjList data.edges u else []

/-- The neighbor scan inside the BFS loop: for each adjacent id not yet
visited, mark it visited and, when a node with that id exists, enqueue that
node (`data.nodes.find(n => n.id === vId)`). Returns the grown visited set
and the nodes pushed, in push order. -/
def enqueueNbrs (nodes : List Node) : List String → List String → List String × List Node
  | visited, [] => (visited, [])
  | visited, v :: rest =>
    if v ∈ visited then enqueueNbrs nodes visited rest
    else
      match nodes.find? (fun n => n.id = v) with
      | some vn =>
        let r := enqueueNbrs nodes (v :: visited) rest
        (r.1, vn :: r.2)
      | none => enqueueNbrs nodes (v :: visited) rest

/-- Number of nodes whose id is not yet visited; together with the queue
length it bounds the remaining iterations of the BFS `while` loop. -/
def unvisitedCount (nodes : List Node) (visited : List String) : Nat :=
  nodes.countP (fun n => !(visited.contains n.id))

/-- The BFS `while (head < queue.length)` loop, structurally recursive on an
iteration budget.  Returns the collected component and the final visited set.
`bfs_drains` below shows the budget used by `bfsLoop` always suffices. -/
def bfsLoopF (nodes : List Node) (adjf : String → List String) :
    Nat → List String → List Node → List Node × List String
  | 0, visited, _ => ([], visited)
  | _ + 1, visited, [] => ([], visited)
  | fuel + 1, visited, u :: rest =>
    let r := enqueueNbrs nodes visited (adjf u.id)
    let k := bfsLoopF nodes adjf fuel r.1 (rest ++ r.2)
    (u :: k.1, k.2)

/-- The BFS loop with its sufficient budget. -/
def bfsLoop (nodes : List Node) (adjf : String → List String)
    (visited : List String) (queue : List Node) : List Node × List String :=
  bfsLoopF nodes adjf (queue.length + unvisitedCount nodes visited) visited queue

/-- The outer component loop: scan `data.nodes` in order, starting a BFS from
every not-yet-visited node. -/
def componentsLoop (nodes : List Node) (adjf : String → List String) :
    List Node → List String → List (List Node)
  | [], _ => []
  | s :: rest, visited =>
    if s.id ∈ visited then componentsLoop nodes adjf rest visited
    else
      let r := bfsLoop nodes adjf (s.id :: visited) [s]
      r.1 :: componentsLoop nodes adjf rest r.2

/-- The connected components of the graph, in discovery order. -/
def components (data : LineageData) : List (List Node) :=
  componentsLoop data.nodes (undirAdj data) data.nodes []

/-- `Math.min(...comp.map(node => nodeOrder.get(node.id)!))`; components are
never empty, so the `[]` case is unreachable. -/
def minOrder (nodes : List Node) (comp : List Node) : Nat :=
  match comp.map (fun n => orderKey nodes n.id) with
  | [] => 0
  | a :: rest => rest.foldl min a

/-- Step 2 of `nodeDepths`: components sorted by the minimum original-order
index of their members. -/
def sortedComponents (data : LineageData) : List (List Node) :=
  sortByKey (minOrder data.nodes) (components data)

/-! ## Depth assignment (`nodeDepths`, step 3) -/

/-- `componentEdges`: the edges both of whose endpoints lie in the component. -/
def compEdges (edges : List Edge) (comp : List Node) : List Edge :=
  edges.filter (fun e =>
    (comp.any (fun n => n.id = e.sourceNodeId)) && (comp.any (fun n => n.id = e.targetNodeId)))

/-- `compAdj`: directed adjacency restricted to the component's edges (targets
of the edges leaving `u`, in edge order); only component ids carry an entry. -/
def compAdj (E : List Edge) (comp : List Node) (u : String) : List String :=
  if u ∈ nodeIds comp then (E.filter (fun e => e.sourceNodeId = u)).map (fun e => e.targetNodeId)
  else []

/-- Lookup in the association-list embedding of the `inDegree` map. -/
def lookupA (m : List (String × Int)) (k : String) : Option Int :=
  (m.find? (fun p => p.1 = k)).map (fun p => p.2)

/-- `Map.set` on the association-list embedding: replace the first binding of
the key, else append a fresh binding. -/
def setA (m : List (String × Int)) (k : String) (v : Int) : List (String × Int) :=
  match m with
  | [] => [(k, v)]
  | p :: rest => if p.1 = k then (k, v) :: rest else p :: setA rest k v

/-- State of the topological queue loop: the `depths` map, the `inDegree`
map, the pending part of the queue (`queue.slice(head)`), and the already
dequeued ids in dequeue order. -/
structure TopoSt where
  depths : String → Option Nat
  inDeg : List (String × Int)
  queue : List String
  processed : List String

/-- Body of the inner `for (const v of neighbors)` loop:
`depths.set(v, Math.max(depths.get(v) || 0, d + 1))`, decrement `v`'s
in-degree, and enqueue `v` when the new degree is exactly `0`.  A missing
`inDegree` entry (unreachable for component edges) yields JavaScript `NaN`,
which never equals `0`; it is embedded as a negative value, which likewise
never reaches `0` under further decrements. -/
def relax (d : Nat) (s : TopoSt) (v : String) : TopoSt :=
  let depths2 : String → Option Nat :=
    fun x => if x = v then some (max ((s.depths v).getD 0) (d + 1)) else s.depths x
  match lookupA s.inDeg v with
  | some k =>
    { depths := depths2, inDeg := setA s.inDeg v (k - 1),
      queue := if k - 1 = 0 then s.queue ++ [v] else s.queue, processed := s.processed }
  | none =>
    { depths := depths2, inDeg := setA s.inDeg v (-1),
      queue := s.queue, processed := s.processed }

/-- One dequeue of the topological loop: read `u`'s depth, sort its
neighbors by original node order, and relax each of them. -/
def topoStep (key : String → Nat) (adjf : String → List String) (s : TopoSt) (u : String) : TopoSt :=
  let d := (s.depths u).getD 0
  let nbrs := sortByKey key (adjf u)
  nbrs.foldl (relax d) { s with processed := s.processed ++ [u] }

/-- Sum of the positive in-degrees; every queue push is paid for by a unit of
this sum, so `queue.length + degSum inDeg` bounds the remaining iterations. -/
def degSum (m : List (String × Int)) : Nat := (m.map (fun p => p.2.toNat)).sum

/-- Iteration budget of the topological `while` loop. -/
def topoMeasure (s : TopoSt) : Nat := s.queue.length + degSum s.inDeg

/-- The topological `while (head < queue.length)` loop, structurally recursive
on an iteration budget; `topo_drains` below shows the budget used by
`topoRun` always suffices. -/
def topoRunF (key : String → Nat) (adjf : String → List String) : Nat → TopoSt → TopoSt
  | 0, s => s
  | fuel + 1, s =>
    match s.queue with
    | [] => s
    | u :: rest => topoRunF key adjf fuel (topoStep key adjf { s with queue := rest } u)

/-- The topological loop with its sufficient budget. -/
def topoRun (key : String → Nat) (adjf : String → List String) (s : TopoSt) : TopoSt :=
  topoRunF key adjf (topoMeasure s) s

/-- The `inDegree` map after initialisation: zero for every component node,
then `+1` on the target of every component edge. -/
def initInDeg (comp : List Node) (E : List Edge) : List (String × Int) :=
  E.foldl (fun m e => setA m e.targetNodeId ((lookupA m e.targetNodeId).getD 0 + 1))
    (comp.foldl (fun m n => setA m n.id 0) [])

/-- The seed scan: component nodes whose initial in-degree is `0`, in
component order (they are pushed and given depth `0`, then the queue is
sorted). -/
def seeds (comp : List Node) (m : List (String × Int)) : List String :=
  (comp.filter (fun n => decide ((lookupA m n.id).getD 0 = 0))).map (fun n => n.id)

/-- The initial state of the topological loop for one component. -/
def initSt (data : LineageData) (comp : List Node) : TopoSt :=
  let E := compEdges data.edges comp
  let m := initInDeg comp E
  let sds := seeds comp m
  { depths := fun x => if x ∈ sds then some 0 else none,
    inDeg := m,
    queue := sortByKey (orderKey data.nodes) sds,
    processed := [] }

/-- The state after the component's topological queue has been processed. -/
def compFinalState (data : LineageData) (comp : List Node) : TopoSt :=
  topoRun (orderKey data.nodes) (compAdj (compEdges data.edges comp) comp) (initSt data comp)

/-- The component's `depths` map after the queue drains, before the
depth-0 fallback for unassigned nodes. -/
def compDepthMap (data : LineageData) (comp : List Node) : String → Option Nat :=
  (compFinalState data comp).depths

/-- The ids dequeued by the topological pass of this component. -/
def compProcessed (data : LineageData) (comp : List Node) : List String :=
  (compFinalState data comp).processed

/-- `maxDepthInComponent`: the largest (fallback-completed) depth in the
component. -/
def compMaxDepth (data : LineageData) (comp : List Node) : Nat :=
  comp.foldl (fun mx n => max mx ((compDepthMap data comp n.id).getD 0)) 0

/-- The per-component accumulation into `finalDepths`: every component node
gets its component depth (`0` if the topological pass never assigned one)
plus the running `depthOffset`; the offset then advances by
`maxDepthInComponent + 2`. -/
def nodeDepthsLoop (data : LineageData) :
    List (List Node) → (String → Option Nat) → Nat → (String → Option Nat)
  | [], fd, _ => fd
  | comp :: rest, fd, off =>
    let dm := compDepthMap data comp
    let fd2 := comp.foldl
      (fun m n => fun x => if x = n.id then some ((dm n.id).getD 0 + off) else m x) fd
    nodeDepthsLoop data rest fd2 (off + compMaxDepth data comp + 2)

/-- The `nodeDepths` memo: final depth per node id (empty map when there are
no nodes). -/
def nodeDepths (data : LineageData) : String → Option Nat :=
  if data.nodes.isEmpty then fun _ => none
  else nodeDepthsLoop data (sortedComponents data) (fun _ => none) 0

/-- The `depthOffset` each sorted component receives, read off the same
accumulator as `nodeDepthsLoop`. -/
def offsetsLoop (data : LineageData) : List (List Node) → Nat → List (List Node × Nat)
  | [], _ => []
  | comp :: rest, off => (comp, off) :: offsetsLoop data rest (off + compMaxDepth data comp + 2)

/-- Each sorted component paired with its depth offset. -/
def componentOffsets (data : LineageData) : List (List Node × Nat) :=
  offsetsLoop data (sortedComponents data) 0

/-- The depth offset of the component containing a given node id. -/
def offsetOfNode (data : LineageData) (id : String) : Option Nat :=
  ((componentOffsets data).find? (fun p => p.1.any (fun n => n.id = id))).map (fun p => p.2)

/-! ## Coordinate assignment (the layout effect) -/

/-- `NODE_WIDTH` constant. -/
def NODE_WIDTH : ℚ := 256

/-- `HEADER_HEIGHT` constant. -/
def HEADER_HEIGHT : ℚ := 60

/-- `COLUMN_HEIGHT` constant (the spec's `COLUMN_ROW_HEIGHT`). -/
def COLUMN_HEIGHT : ℚ := 28

/-- `HEADER_HEIGHT + columns.length * COLUMN_HEIGHT`, a node box's height. -/
def nodeHeight (columns : List Column) : ℚ :=
  HEADER_HEIGHT + (columns.length : ℚ) * COLUMN_HEIGHT

/-- The `D3Node` after layout: a node with concrete center coordinates and
the optional pin fields `fx`/`fy`. -/
structure LayoutNode where
  id : String
  name : String
  type : NodeType
  columns : List Column
  x : ℚ
  y : ℚ
  fx : Option ℚ
  fy : Option ℚ
deriving DecidableEq, Repr

/-- `nodeDepths.get(node.id) ?? 0`. -/
def depthOf (data : LineageData) (id : String) : Nat := (nodeDepths data id).getD 0

/-- Nodes numbered by their array index. -/
def enumFrom : Nat → List Node → List (Nat × Node)
  | _, [] => []
  | i, n :: rest => (i, n) :: enumFrom (i + 1) rest

/-- `nodesByDepth[dep]`, then sorted by original order: the depth column a
node is stacked in.  Grouping by array scan preserves array order, and the
source's stable sort by `nodeOrder.get(a.id) ?? 0` is the stable key sort. -/
def depthGroup (data : LineageData) (dep : Nat) : List (Nat × Node) :=
  sortByKey (fun p => orderKey data.nodes p.2.id)
    ((enumFrom 0 data.nodes).filter (fun p => decide (depthOf data p.2.id = dep)))

/-- `totalContentHeight` of one depth column. -/
def groupContentHeight (g : List (Nat × Node)) : ℚ :=
  (g.map (fun p => nodeHeight p.2.columns)).sum

/-- `totalColumnHeight = totalContentHeight + (length - 1) * verticalMargin`. -/
def groupTotalHeight (g : List (Nat × Node)) : ℚ :=
  groupContentHeight g + ((g.length : ℚ) - 1) * 40

/-- Walk the sorted depth column accumulating `currentY`; the node with enum
index `i` gets the center of its slot. -/
def yFromGroup (start : ℚ) : List (Nat × Node) → Nat → ℚ
  | [], _ => 0
  | (j, n) :: rest, i =>
    if j = i then start + nodeHeight n.columns / 2
    else yFromGroup (start + nodeHeight n.columns + 40) rest i

/-- `x = depth * (NODE_WIDTH + 120) + 50 + NODE_WIDTH / 2`. -/
def xOfDepth (dep : Nat) : ℚ := (dep : ℚ) * (NODE_WIDTH + 120) + 50 + NODE_WIDTH / 2

/-- The provisional layout before normalization: each node's center
coordinates from its depth column and its slot in that column
(`currentY` starts at `(height - totalColumnHeight) / 2`). -/
def provisionalNodes (data : LineageData) (h : ℚ) : List LayoutNode :=
  (enumFrom 0 data.nodes).map (fun p =>
    let dep := depthOf data p.2.id
    let g := depthGroup data dep
    { id := p.2.id, name := p.2.name, type := p.2.type, columns := p.2.columns,
      x := xOfDepth dep,
      y := yFromGroup ((h - groupTotalHeight g) / 2) g p.1,
      fx := none, fy := none })

/-- Minimum of a list of rationals (`Infinity`-seeded strict-compare fold);
only applied to nonempty lists. -/
def minQ : List ℚ → ℚ
  | [] => 0
  | a :: rest => rest.foldl min a

/-- The normalization pass: compute the minimum left and top box edges and,
when either intrudes into the 50px padding, shift every node by the deficit. -/
def normalize (ns : List LayoutNode) : List LayoutNode :=
  if ns.isEmpty then ns
  else
    let minX := minQ (ns.map (fun n => n.x - NODE_WIDTH / 2))
    let minY := minQ (ns.map (fun n => n.y - nodeHeight n.columns / 2))
    let offsetX := if minX < 50 then -minX + 50 else 0
    let offsetY := if minY < 50 then -minY + 50 else 0
    if 0 < offsetX ∨ 0 < offsetY then
      ns.map (fun n => { n with x := n.x + offsetX, y := n.y + offsetY })
    else ns

/-- The full layout computation of the effect: depths, stacking, horizontal
placement, then normalization (empty result when there are no nodes, matching
the effect's early return). -/
def computeLayout (data : LineageData) (h : ℚ) : List LayoutNode :=
  if data.nodes.isEmpty then [] else normalize (provisionalNodes data h)

/-! ## Interaction and geometry layer -/

/-- The `nodeMap` lookup (`new Map(nodes.map(n => [n.id, n]))`): the last
node with the id wins, as repeated `Map` insertions overwrite. -/
def nodeMapGet (ns : List LayoutNode) (id : String) : Option LayoutNode :=
  ns.foldl (fun acc n => if n.id = id then some n else acc) none

/-- `columns.findIndex(c => c.name === columnName)`, with `none` for `-1`. -/
def findColIdx (colName : String) : List Column → Option Nat
  | [] => none
  | c :: rest => if c.name = colName then some 0 else (findColIdx colName rest).map (fun i => i + 1)

/-- `getColumnYOffset`: vertical anchor offset of a named column within a
node, `0` when the node or the column is unknown. -/
def getColumnYOffset (ns : List LayoutNode) (nodeId colName : String) : ℚ :=
  match nodeMapGet ns nodeId with
  | none => 0
  | some node =>
    match findColIdx colName node.columns with
    | none => 0
    | some i => HEADER_HEIGHT + (i : ℚ) * COLUMN_HEIGHT + COLUMN_HEIGHT / 2

/-- The endpoints of one rendered edge path. -/
structure EdgeGeom where
  x1 : ℚ
  y1 : ℚ
  x2 : ℚ
  y2 : ℚ
deriving DecidableEq, Repr

/-- The arrowhead clearance subtracted from / added to the target-side x. -/
def markerOffset : ℚ := 10

/-- The per-edge geometry of the render function: `none` when either endpoint
id has no laid-out node (the edge is silently skipped); otherwise the column
anchors and the left/right box edges chosen by comparing center-x, with the
back-edge branch taken when `source.x < target.x` fails. -/
def resolveEdgeGeometry (ns : List LayoutNode) (e : Edge) : Option EdgeGeom :=
  match nodeMapGet ns e.sourceNodeId, nodeMapGet ns e.targetNodeId with
  | some s, some t =>
    let y1 := (s.y - nodeHeight s.columns / 2) + getColumnYOffset ns e.sourceNodeId e.sourceColumn
    let y2 := (t.y - nodeHeight t.columns / 2) + getColumnYOffset ns e.targetNodeId e.targetColumn
    if s.x < t.x then
      some { x1 := s.x + NODE_WIDTH / 2, y1 := y1, x2 := t.x - NODE_WIDTH / 2 - markerOffset, y2 := y2 }
    else
      some { x1 := s.x - NODE_WIDTH / 2, y1 := y1, x2 := t.x + NODE_WIDTH / 2 + markerOffset, y2 := y2 }
  | _, _ => none

/-- The style record returned by `getEdgeStyle`. -/
structure EdgeStyle where
  stroke : String
  strokeWidth : ℚ
  opacity : ℚ
  isRelated : Bool
deriving DecidableEq, Repr

/-- `getEdgeStyle`: neutral style with no selection; otherwise emphasized
exactly when the edge shares the selected edge's source `(node, column)` pair
or its target `(node, column)` pair. -/
def getEdgeStyle (selectedEdge : Option Edge) (currentEdge : Edge) : EdgeStyle :=
  match selectedEdge with
  | none => { stroke := "#9ca3af", strokeWidth := 3 / 2, opacity := 1, isRelated := false }
  | some sel =>
    if (currentEdge.sourceNodeId = sel.sourceNodeId ∧ currentEdge.sourceColumn = sel.sourceColumn)
        ∨ (currentEdge.targetNodeId = sel.targetNodeId ∧ currentEdge.targetColumn = sel.targetColumn) then
      { stroke := "#2563eb", strokeWidth := 5 / 2, opacity := 1, isRelated := true }
    else
      { stroke := "#d1d5db", strokeWidth := 1, opacity := 3 / 5, isRelated := false }

/-- `handleNodeDrag`: set the matching node's position to the given point and
pin it (`fx`/`fy`); every other node is untouched. -/
def handleNodeDrag (ns : List LayoutNode) (nodeId : String) (px py : ℚ) : List LayoutNode :=
  ns.map (fun n =>
    if n.id = nodeId then { n with x := px, y := py, fx := some px, fy := some py } else n)

/-- A full drag delta as delivered by the node component's drag handler: the
new position is the node's current position plus the delta
(`(latestNode.x || 0) + event.dx`), then `handleNodeDrag` applies it. -/
def applyDrag (ns : List LayoutNode) (nodeId : String) (dx dy : ℚ) : List LayoutNode :=
  match nodeMapGet ns nodeId with
  | some n => handleNodeDrag ns nodeId (n.x + dx) (n.y + dy)
  | none => ns

/-! ## Observers used by the verification -/

/-- Number of edges of `E` entering `x` (the initial in-degree of `x`). -/
def indeg0 (E : List Edge) (x : String) : Nat :=
  (E.filter (fun e => e.targetNodeId = x)).length

/-- Number of edges of `E` entering `x` whose source has been dequeued. -/
def procCount (E : List Edge) (processed : List String) (x : String) : Nat :=
  (E.filter (fun e => e.targetNodeId = x && processed.contains e.sourceNodeId)).length

/-- Number of edges of `E` from `u` to `x`. -/
def outCount (E : List Edge) (u x : String) : Nat :=
  (E.filter (fun e => e.sourceNodeId = u && e.targetNodeId = x)).length

/-- The depth the loop currently associates to `x` (`depths.get(x) || 0`). -/
def depthD (s : TopoSt) (x : String) : Nat := (s.depths x).getD 0

/-- Invariant of the topological queue loop on one component.  `processed`
and the pending queue are disjoint component ids without repetition; the
`inDegree` entry of a component node is its initial in-degree minus the
relaxations already performed on it; a component node has been enqueued
exactly when all of its in-edges have been relaxed; and every dequeued
node's out-edges have been relaxed to a depth at least one beyond its own. -/
structure TopoInv (comp : List Node) (E : List Edge) (s : TopoSt) : Prop where
  nodupP : s.processed.Nodup
  nodupQ : s.queue.Nodup
  disjPQ : ∀ x ∈ s.processed, x ∉ s.queue
  memP : ∀ x ∈ s.processed, x ∈ nodeIds comp
  memQ : ∀ x ∈ s.queue, x ∈ nodeIds comp
  deg : ∀ x, lookupA s.inDeg x =
    if x ∈ nodeIds comp then some ((indeg0 E x : Int) - (procCount E s.processed x : Int))
    else none
  memIff : ∀ x ∈ nodeIds comp, (x ∈ s.processed ∨ x ∈ s.queue) ↔
    procCount E s.processed x = indeg0 E x
  mono : ∀ u ∈ s.processed, ∀ e ∈ E, e.sourceNodeId = u →
    depthD s u + 1 ≤ depthD s e.targetNodeId

/-! ## Concrete fixtures -/

/-- A plain text column named `a`. -/
def colA : Column := { name := "a", type := "text" }

/-- A plain text column named `b`. -/
def colB : Column := { name := "b", type := "text" }

/-- A table node with no columns. -/
def tNode (id : String) : Node :=
  { id := id, name := id, type := NodeType.Table, columns := [] }

/-- A table node with the given columns. -/
def cNode (id : String) (cols : List Column) : Node :=
  { id := id, name := id, type := NodeType.Table, columns := cols }

/-- An edge between the `a` columns of two nodes. -/
def cEdge (s t : String) : Edge :=
  { sourceNodeId := s, sourceColumn := "a", targetNodeId := t, targetColumn := "a" }

/-- The spec's self-referential cycle scenario `A→B→A`. -/
def Gcyc : LineageData :=
  { nodes := [tNode "A", tNode "B"], edges := [cEdge "A" "B", cEdge "B" "A"] }

/-- The spec's linear chain scenario `A→B→C`. -/
def Gchain : LineageData :=
  { nodes := [tNode "A", tNode "B", tNode "C"], edges := [cEdge "A" "B", cEdge "B" "C"] }

/-- A graph with a two-node cycle `A⇄B` fed by seed `Z`, plus a seed `W` and
a cycle-independent node `C` that receives edges from both `W` and `B`. -/
def Gc1 : LineageData :=
  { nodes := [tNode "Z", tNode "W", tNode "A", tNode "B", tNode "C"],
    edges := [cEdge "A" "B", cEdge "B" "A", cEdge "Z" "B", cEdge "W" "C", cEdge "B" "C"] }

/-- The single component the decomposition finds for `Gc1`. -/
def compC1 : List Node := [tNode "Z", tNode "B", tNode "A", tNode "C", tNode "W"]

/-- Two disconnected pairs whose interleaved node order `C, A, B, D` puts `A`
(of the second component) before `B` (of the first component). -/
def Gc5 : LineageData :=
  { nodes := [tNode "C", tNode "A", tNode "B", tNode "D"],
    edges := [cEdge "C" "B", cEdge "A" "D"] }

/-- The spec's two-disconnected-pairs scenario: `{A→B}` then `{C→D}`. -/
def Gpairs : LineageData :=
  { nodes := [tNode "A", tNode "B", tNode "C", tNode "D"],
    edges := [cEdge "A" "B", cEdge "C" "D"] }

/-- A single one-column node, for concrete layout evaluation. -/
def Gone : LineageData := { nodes := [cNode "A" [colA]], edges := [] }

/-- The layout `computeLayout Gone 0` produces. -/
def lnA : LayoutNode :=
  { id := "A", name := "A", type := NodeType.Table, columns := [colA],
    x := 178, y := 94, fx := none, fy := none }

/-- A second laid-out node, to the right of `lnA`. -/
def lnB : LayoutNode :=
  { id := "B", name := "B", type := NodeType.Table, columns := [colA, colB],
    x := 554, y := 102, fx := none, fy := none }

end Lineage

namespace Lineage

/-! ## Helper lemmas: stable key sort -/

theorem insertByKey_perm (key : α → Nat) (a : α) (l : List α) :
    (insertByKey key a l).Perm (a :: l) := by
  induction l with
  | nil => simp [insertByKey]
  | cons b t ih =>
    simp only [insertByKey]
    split
    · exact List.Perm.refl _
    · exact (List.Perm.cons b ih).trans (List.Perm.swap a b t)

theorem sortByKey_perm (key : α → Nat) (l : List α) : (sortByKey key l).Perm l := by
  induction l with
  | nil => simp [sortByKey]
  | cons a t ih => exact (insertByKey_perm key a (sortByKey key t)).trans (List.Perm.cons a ih)

theorem mem_sortByKey {key : α → Nat} {l : List α} {x : α} : x ∈ sortByKey key l ↔ x ∈ l :=
  (sortByKey_perm key l).mem_iff

theorem insertByKey_sorted (key : α → Nat) (a : α) (l : List α)
    (h : l.Pairwise (fun x y => key x ≤ key y)) :
    (insertByKey key a l).Pairwise (fun x y => key x ≤ key y) := by
  induction l with
  | nil => simp [insertByKey]
  | cons b t ih =>
    rw [List.pairwise_cons] at h
    obtain ⟨hb, ht⟩ := h
    simp only [insertByKey]
    split
    · refine List.Pairwise.cons ?_ (List.Pairwise.cons hb ht)
      intro y hy
      rcases List.mem_cons.1 hy with rfl | hy
      · assumption
      · exact le_trans (by assumption) (hb y hy)
    · refine List.Pairwise.cons ?_ (ih ht)
      intro y hy
      rcases List.mem_cons.1 ((insertByKey_perm key a t).mem_iff.1 hy) with rfl | hy
      · omega
      · exact hb y hy

theorem sortByKey_sorted (key : α → Nat) (l : List α) :
    (sortByKey key l).Pairwise (fun x y => key x ≤ key y) := by
  induction l with
  | nil => simp [sortByKey]
  | cons a t ih => exact insertByKey_sorted key a (sortByKey key t) ih

/-! ## Helper lemmas: list minimum -/

theorem foldl_min_le_init : ∀ (l : List ℚ) (a : ℚ), l.foldl min a ≤ a := by
  intro l
  induction l with
  | nil => intro a; simp
  | cons b t ih => intro a; exact le_trans (ih (min a b)) (min_le_left a b)

theorem foldl_min_le_mem : ∀ (l : List ℚ) (a x : ℚ), x ∈ l → l.foldl min a ≤ x := by
  intro l
  induction l with
  | nil => intro a x h; simp at h
  | cons b t ih =>
    intro a x h
    rcases List.mem_cons.1 h with rfl | h
    · exact le_trans (foldl_min_le_init t (min a x)) (min_le_right a x)
    · exact ih (min a b) x h

theorem minQ_le {l : List ℚ} {x : ℚ} (hx : x ∈ l) : minQ l ≤ x := by
  cases l with
  | nil => simp at hx
  | cons a t =>
    simp only [minQ]
    rcases List.mem_cons.1 hx with rfl | h
    · exact foldl_min_le_init t x
    · exact foldl_min_le_mem t a x h

/-! ## Helper lemmas: the node map -/

theorem nodeMapGet_aux_none (ns : List LayoutNode) (id : String) :
    ∀ acc : Option LayoutNode,
      ns.foldl (fun a n => if n.id = id then some n else a) acc = none ↔
        acc = none ∧ ∀ n ∈ ns, n.id ≠ id := by
  induction ns with
  | nil => intro acc; simp
  | cons m t ih =>
    intro acc
    simp only [List.foldl_cons]
    rw [ih]
    by_cases hm : m.id = id
    · simp [hm]
    · simp [hm, List.forall_mem_cons]

theorem nodeMapGet_eq_none_iff (ns : List LayoutNode) (id : String) :
    nodeMapGet ns id = none ↔ ∀ n ∈ ns, n.id ≠ id := by
  unfold nodeMapGet
  rw [nodeMapGet_aux_none]
  simp

theorem nodeMapGet_aux_some (ns : List LayoutNode) (id : String) :
    ∀ (acc : Option LayoutNode) (m : LayoutNode),
      ns.foldl (fun a n => if n.id = id then some n else a) acc = some m →
      acc = some m ∨ (m ∈ ns ∧ m.id = id) := by
  induction ns with
  | nil => intro acc m h; exact Or.inl h
  | cons b t ih =>
    intro acc m h
    simp only [List.foldl_cons] at h
    by_cases hb : b.id = id
    · rw [if_pos hb] at h
      rcases ih (some b) m h with h2 | h2
      · right
        obtain rfl : b = m := by injection h2
        exact ⟨List.mem_cons_self _ _, hb⟩
      · exact Or.inr ⟨List.mem_cons_of_mem _ h2.1, h2.2⟩
    · rw [if_neg hb] at h
      rcases ih acc m h with h2 | h2
      · exact Or.inl h2
      · exact Or.inr ⟨List.mem_cons_of_mem _ h2.1, h2.2⟩

theorem nodeMapGet_some {ns : List LayoutNode} {id : String} {m : LayoutNode}
    (h : nodeMapGet ns id = some m) : m ∈ ns ∧ m.id = id := by
  rcases nodeMapGet_aux_some ns id none m h with h2 | h2
  · exact absurd h2 (by simp)
  · exact h2

theorem nodeMapGet_map_aux (f : LayoutNode → LayoutNode) (hf : ∀ n, (f n).id = n.id)
    (ns : List LayoutNode) (id : String) :
    ∀ acc : Option LayoutNode,
      (ns.map f).foldl (fun a n => if n.id = id then some n else a) (acc.map f) =
        (ns.foldl (fun a n => if n.id = id then some n else a) acc).map f := by
  induction ns with
  | nil => intro acc; simp
  | cons m t ih =>
    intro acc
    simp only [List.map_cons, List.foldl_cons, hf m]
    by_cases hm : m.id = id
    · simp only [hm, if_true]
      have h2 : (some (f m)) = (some m).map f := rfl
      rw [h2, ih]
    · simp only [hm, if_false]
      exact ih acc

theorem nodeMapGet_map (f : LayoutNode → LayoutNode) (hf : ∀ n, (f n).id = n.id)
    (ns : List LayoutNode) (id : String) :
    nodeMapGet (ns.map f) id = (nodeMapGet ns id).map f := by
  have h2 := nodeMapGet_map_aux f hf ns id none
  simpa [nodeMapGet] using h2

theorem map_id_of_mem (f : α → α) : ∀ l : List α, (∀ a ∈ l, f a = a) → l.map f = l := by
  intro l
  induction l with
  | nil => intro _; rfl
  | cons a t ih =>
    intro h
    simp only [List.map_cons]
    rw [h a (List.mem_cons_self _ _), ih (fun b hb => h b (List.mem_cons_of_mem _ hb))]

/-! ## Helper lemmas: column index -/

theorem findColIdx_eq_none_iff (colName : String) (cols : List Column) :
    findColIdx colName cols = none ↔ ∀ c ∈ cols, c.name ≠ colName := by
  induction cols with
  | nil => simp [findColIdx]
  | cons c t ih =>
    simp only [findColIdx]
    by_cases hc : c.name = colName
    · simp [hc]
    · simp [hc, ih, List.forall_mem_cons, Option.map_eq_none']

theorem findColIdx_spec (colName : String) :
    ∀ (cols : List Column) (i : Nat), findColIdx colName cols = some i →
      ∃ c, cols.get? i = some c ∧ c.name = colName ∧
        ∀ j, j < i → ∀ cj, cols.get? j = some cj → cj.name ≠ colName := by
  intro cols
  induction cols with
  | nil => intro i h; simp [findColIdx] at h
  | cons c t ih =>
    intro i h
    simp only [findColIdx] at h
    by_cases hc : c.name = colName
    · rw [if_pos hc] at h
      obtain rfl : (0 : Nat) = i := by injection h
      exact ⟨c, rfl, hc, fun j hj => absurd hj (by omega)⟩
    · rw [if_neg hc] at h
      rcases hft : findColIdx colName t with _ | i2
      · rw [hft] at h; simp at h
      · rw [hft] at h
        simp only [Option.map_some'] at h
        obtain rfl : i2 + 1 = i := by injection h
        obtain ⟨c2, hc2, hname, hfirst⟩ := ih i2 hft
        refine ⟨c2, by simpa using hc2, hname, ?_⟩
        intro j hj cj hcj
        cases j with
        | zero =>
          simp only [List.get?_cons_zero] at hcj
          obtain rfl : c = cj := by injection hcj
          exact hc
        | succ j2 =>
          simp only [List.get?_cons_succ] at hcj
          exact hfirst j2 (by omega) cj hcj

end Lineage

namespace Lineage

/-! ## Normalization bounds -/

theorem shift_bounds_aux (ns : List LayoutNode) (offX offY minX minY : ℚ)
    (hbx : ∀ q ∈ ns, minX ≤ q.x - NODE_WIDTH / 2)
    (hby : ∀ q ∈ ns, minY ≤ q.y - nodeHeight q.columns / 2)
    (hX : 50 ≤ minX + offX) (hY : 50 ≤ minY + offY) (p : LayoutNode)
    (hp : p ∈ ns.map (fun n => { n with x := n.x + offX, y := n.y + offY })) :
    50 ≤ p.x - NODE_WIDTH / 2 ∧ 50 ≤ p.y - nodeHeight p.columns / 2 := by
  obtain ⟨q, hq, rfl⟩ := List.mem_map.1 hp
  refine ⟨?_, ?_⟩
  · have h1 := hbx q hq
    dsimp only
    linarith
  · have h1 := hby q hq
    dsimp only
    linarith

theorem normalize_bounds (ns : List LayoutNode) (p : LayoutNode) (hp : p ∈ normalize ns) :
    50 ≤ p.x - NODE_WIDTH / 2 ∧ 50 ≤ p.y - nodeHeight p.columns / 2 := by
  unfold normalize at hp
  by_cases hemp : ns.isEmpty
  · rw [if_pos hemp] at hp
    rw [List.isEmpty_iff] at hemp
    subst hemp
    simp at hp
  · rw [if_neg hemp] at hp
    dsimp only at hp
    generalize hmx : minQ (ns.map (fun n => n.x - NODE_WIDTH / 2)) = minX at hp
    generalize hmy : minQ (ns.map (fun n => n.y - nodeHeight n.columns / 2)) = minY at hp
    have hbx : ∀ q ∈ ns, minX ≤ q.x - NODE_WIDTH / 2 := by
      intro q hq
      rw [← hmx]
      exact minQ_le (List.mem_map_of_mem _ hq)
    have hby : ∀ q ∈ ns, minY ≤ q.y - nodeHeight q.columns / 2 := by
      intro q hq
      rw [← hmy]
      exact minQ_le (List.mem_map_of_mem _ hq)
    have hX : 50 ≤ minX + (if minX < 50 then -minX + 50 else 0) := by
      by_cases hx : minX < 50
      · rw [if_pos hx]; linarith
      · rw [if_neg hx]; push_neg at hx; linarith
    have hY : 50 ≤ minY + (if minY < 50 then -minY + 50 else 0) := by
      by_cases hy : minY < 50
      · rw [if_pos hy]; linarith
      · rw [if_neg hy]; push_neg at hy; linarith
    by_cases hcond : 0 < (if minX < 50 then -minX + 50 else (0:ℚ))
        ∨ 0 < (if minY < 50 then -minY + 50 else (0:ℚ))
    · rw [if_pos hcond] at hp
      exact shift_bounds_aux ns _ _ minX minY hbx hby hX hY p hp
    · rw [if_neg hcond] at hp
      push_neg at hcond
      obtain ⟨hc1, hc2⟩ := hcond
      have hx50 : 50 ≤ minX := by
        by_cases hx : minX < 50
        · rw [if_pos hx] at hc1; linarith
        · push_neg at hx; linarith
      have hy50 : 50 ≤ minY := by
        by_cases hy : minY < 50
        · rw [if_pos hy] at hc2; linarith
        · push_neg at hy; linarith
      exact ⟨le_trans hx50 (hbx p hp), le_trans hy50 (hby p hp)⟩

/-- C4: every node of any layout result keeps its left box edge
(`x − NODE_WIDTH/2`) and its top box edge (`y − nodeHeight/2`, with
`nodeHeight = HEADER_HEIGHT + columnCount·COLUMN_HEIGHT`) at or beyond the
fixed padding of 50, for every input graph and viewport height. -/
theorem layout_nonnegativity (data : LineageData) (h : ℚ) :
    ∀ p ∈ computeLayout data h,
      50 ≤ p.x - NODE_WIDTH / 2 ∧ 50 ≤ p.y - nodeHeight p.columns / 2 := by
  intro p hp
  unfold computeLayout at hp
  by_cases hemp : data.nodes.isEmpty
  · rw [if_pos hemp] at hp
    simp at hp
  · rw [if_neg hemp] at hp
    exact normalize_bounds _ p hp

/-- Witness for C4 at the concrete single-node graph `Gone` with viewport
height `0`: the laid-out node sits exactly at the padding margin. -/
theorem layout_nonnegativity_witness :
    lnA ∈ computeLayout Gone 0 ∧
      50 ≤ lnA.x - NODE_WIDTH / 2 ∧ 50 ≤ lnA.y - nodeHeight lnA.columns / 2 :=
  have hm : lnA ∈ computeLayout Gone 0 := by with_unfolding_all decide
  ⟨hm, layout_nonnegativity Gone 0 lnA hm⟩

/-- C3: the layout computation is a pure function of the graph and the
viewport height, so running it twice on the same input yields identical
coordinates and identical depths.  Every source of run-to-run variation in
the source (`Map` iteration, sort ties) is resolved deterministically by the
code itself, and the embedding reflects that by being a function. -/
theorem layout_deterministic (data : LineageData) (h : ℚ) :
    computeLayout data h = computeLayout data h ∧ nodeDepths data = nodeDepths data :=
  ⟨rfl, rfl⟩

/-- C6: edge geometry resolves to `none` exactly when one of the edge's
endpoint ids matches no laid-out node (the edge is silently skipped, no
error), and resolves to a geometry whenever both endpoints resolve. -/
theorem edge_geometry_resolution (ns : List LayoutNode) (e : Edge) :
    (resolveEdgeGeometry ns e = none ↔
      (∀ n ∈ ns, n.id ≠ e.sourceNodeId) ∨ (∀ n ∈ ns, n.id ≠ e.targetNodeId))
    ∧ (∀ s t, nodeMapGet ns e.sourceNodeId = some s → nodeMapGet ns e.targetNodeId = some t →
        ∃ g, resolveEdgeGeometry ns e = some g) := by
  constructor
  · rw [← nodeMapGet_eq_none_iff, ← nodeMapGet_eq_none_iff]
    unfold resolveEdgeGeometry
    rcases hs : nodeMapGet ns e.sourceNodeId with _ | s <;>
      rcases ht : nodeMapGet ns e.targetNodeId with _ | t <;> simp
    split <;> simp
  · intro s t hs ht
    unfold resolveEdgeGeometry
    rw [hs, ht]
    dsimp only
    split <;> exact ⟨_, rfl⟩

/-- Witness for C6: on the empty layout every edge's geometry is `none`. -/
theorem edge_geometry_resolution_witness :
    resolveEdgeGeometry [] (cEdge "A" "B") = none :=
  (edge_geometry_resolution [] (cEdge "A" "B")).1.mpr (Or.inl (by intro n hn; simp at hn))

/-- C7: with no selection every edge receives the neutral style; while an
edge `sel` is selected, an edge is styled as related exactly when it shares
`sel`'s `(sourceNodeId, sourceColumn)` pair or `sel`'s
`(targetNodeId, targetColumn)` pair (in particular `sel` itself is always
related), and receives the dimmed style otherwise. -/
theorem edge_classification (sel cur : Edge) :
    getEdgeStyle none cur =
      { stroke := "#9ca3af", strokeWidth := 3 / 2, opacity := 1, isRelated := false }
    ∧ getEdgeStyle (some sel) cur =
        (if (cur.sourceNodeId = sel.sourceNodeId ∧ cur.sourceColumn = sel.sourceColumn)
            ∨ (cur.targetNodeId = sel.targetNodeId ∧ cur.targetColumn = sel.targetColumn) then
          { stroke := "#2563eb", strokeWidth := 5 / 2, opacity := 1, isRelated := true }
        else { stroke := "#d1d5db", strokeWidth := 1, opacity := 3 / 5, isRelated := false })
    ∧ ((getEdgeStyle (some sel) cur).isRelated = true ↔
        (cur.sourceNodeId = sel.sourceNodeId ∧ cur.sourceColumn = sel.sourceColumn)
        ∨ (cur.targetNodeId = sel.targetNodeId ∧ cur.targetColumn = sel.targetColumn))
    ∧ (getEdgeStyle (some sel) sel).isRelated = true := by
  refine ⟨rfl, rfl, ?_, ?_⟩
  · dsimp only [getEdgeStyle]
    split
    · next hcond => simp [hcond]
    · next hcond => simp [hcond]
  · dsimp only [getEdgeStyle]
    rw [if_pos (Or.inl ⟨rfl, rfl⟩)]

/-- C8: a drag delta updates exactly the matching node, adding the delta to
its position and pinning it (`fx`/`fy`), leaving every other node and every
other field untouched; geometry lookups afterwards see the dragged position;
and a drag for an unknown node id is a no-op rather than an error. -/
theorem drag_override (ns : List LayoutNode) (nodeId : String) (dx dy px py : ℚ) :
    ((∀ n ∈ ns, n.id ≠ nodeId) →
      handleNodeDrag ns nodeId px py = ns ∧ applyDrag ns nodeId dx dy = ns)
    ∧ (∀ i n, ns.get? i = some n → n.id ≠ nodeId →
        (handleNodeDrag ns nodeId px py).get? i = some n
        ∧ (applyDrag ns nodeId dx dy).get? i = some n)
    ∧ (∀ m, nodeMapGet ns nodeId = some m →
        nodeMapGet (applyDrag ns nodeId dx dy) nodeId =
          some { m with x := m.x + dx, y := m.y + dy,
                        fx := some (m.x + dx), fy := some (m.y + dy) }) := by
  have hid : ∀ (px2 py2 : ℚ) (n : LayoutNode),
      ((fun n => if n.id = nodeId then
          { n with x := px2, y := py2, fx := some px2, fy := some py2 } else n) n).id = n.id := by
    intro px2 py2 n
    dsimp only
    by_cases hn : n.id = nodeId
    · rw [if_pos hn]
    · rw [if_neg hn]
  have hnoop : (∀ n ∈ ns, n.id ≠ nodeId) → ∀ px2 py2, handleNodeDrag ns nodeId px2 py2 = ns := by
    intro hall px2 py2
    unfold handleNodeDrag
    refine map_id_of_mem _ ns ?_
    intro n hn
    rw [if_neg (hall n hn)]
  refine ⟨?_, ?_, ?_⟩
  · intro hall
    refine ⟨hnoop hall px py, ?_⟩
    unfold applyDrag
    rcases hq : nodeMapGet ns nodeId with _ | m
    · rfl
    · exact absurd (nodeMapGet_some hq).2 (hall m (nodeMapGet_some hq).1)
  · intro i n hi hn
    constructor
    · unfold handleNodeDrag
      rw [List.get?_map, hi]
      simp only [Option.map_some']
      rw [if_neg hn]
    · unfold applyDrag
      rcases hq : nodeMapGet ns nodeId with _ | m
      · exact hi
      · unfold handleNodeDrag
        rw [List.get?_map, hi]
        simp only [Option.map_some']
        rw [if_neg hn]
  · intro m hm
    unfold applyDrag
    rw [hm]
    unfold handleNodeDrag
    rw [nodeMapGet_map _ (hid (m.x + dx) (m.y + dy)), hm]
    simp only [Option.map_some']
    rw [if_pos (nodeMapGet_some hm).2]

/-- Witness for C8 at a concrete one-node layout: dragging `lnA` by `(3, 4)`
adds the delta to its position and pins it. -/
theorem drag_override_witness :
    nodeMapGet (applyDrag [lnA] "A" 3 4) "A" =
      some { lnA with x := lnA.x + 3, y := lnA.y + 4,
                      fx := some (lnA.x + 3), fy := some (lnA.y + 4) } :=
  (drag_override [lnA] "A" 3 4 0 0).2.2 lnA rfl

/-- C9: for a resolvable endpoint node, the vertical anchor offset of a named
column is `HEADER_HEIGHT + columnIndex·COLUMN_HEIGHT + COLUMN_HEIGHT/2` where
`columnIndex` is the index of the first column of that node whose name
matches; a missing column yields offset `0` rather than an error; and the
resolved edge geometry's `y1` is built from exactly this offset. -/
theorem column_anchor_offset (ns : List LayoutNode) (nodeId colName : String)
    (node : LayoutNode) (hn : nodeMapGet ns nodeId = some node) :
    (findColIdx colName node.columns = none → getColumnYOffset ns nodeId colName = 0)
    ∧ (∀ i, findColIdx colName node.columns = some i →
        getColumnYOffset ns nodeId colName =
          HEADER_HEIGHT + (i : ℚ) * COLUMN_HEIGHT + COLUMN_HEIGHT / 2
        ∧ ∃ c, node.columns.get? i = some c ∧ c.name = colName
            ∧ ∀ j, j < i → ∀ cj, node.columns.get? j = some cj → cj.name ≠ colName)
    ∧ ((∀ c ∈ node.columns, c.name ≠ colName) → getColumnYOffset ns nodeId colName = 0)
    ∧ (∀ e g s2, resolveEdgeGeometry ns e = some g → nodeMapGet ns e.sourceNodeId = some s2 →
        g.y1 = (s2.y - nodeHeight s2.columns / 2)
          + getColumnYOffset ns e.sourceNodeId e.sourceColumn) := by
  refine ⟨?_, ?_, ?_, ?_⟩
  · intro hnone
    unfold getColumnYOffset
    rw [hn]
    dsimp only
    rw [hnone]
  · intro i hi
    constructor
    · unfold getColumnYOffset
      rw [hn]
      dsimp only
      rw [hi]
    · exact findColIdx_spec colName node.columns i hi
  · intro hall
    unfold getColumnYOffset
    rw [hn]
    dsimp only
    rw [(findColIdx_eq_none_iff colName node.columns).mpr hall]
  · intro e g s2 hg hs2
    unfold resolveEdgeGeometry at hg
    rcases hs : nodeMapGet ns e.sourceNodeId with _ | s
    · rw [hs] at hg; exact absurd hg (by simp)
    · rcases ht : nodeMapGet ns e.targetNodeId with _ | t
      · rw [hs, ht] at hg; exact absurd hg (by simp)
      · rw [hs, ht] at hg
        dsimp only at hg
        rw [hs] at hs2
        obtain rfl : s = s2 := by injection hs2
        split at hg <;> (obtain rfl : _ = g := by injection hg) <;> rfl

/-- Witness for C9: in node `lnB` the column named `b` is at index 1, so its
anchor offset is `HEADER_HEIGHT + 1·COLUMN_HEIGHT + COLUMN_HEIGHT/2`. -/
theorem column_anchor_offset_witness :
    getColumnYOffset [lnB] "B" "b" = HEADER_HEIGHT + (1 : ℚ) * COLUMN_HEIGHT + COLUMN_HEIGHT / 2
    ∧ ∃ c, lnB.columns.get? 1 = some c ∧ c.name = "b"
        ∧ ∀ j, j < 1 → ∀ cj, lnB.columns.get? j = some cj → cj.name ≠ "b" :=
  (column_anchor_offset [lnB] "B" "b" lnB rfl).2.1 1 rfl

/-- C10: when source and target have exactly equal center-x (e.g. a
self-loop), edge geometry takes the back-edge branch: it exits the source's
left box edge and enters the target's right box edge plus the marker
clearance. -/
theorem backedge_on_equal_x (ns : List LayoutNode) (e : Edge) (s t : LayoutNode)
    (hs : nodeMapGet ns e.sourceNodeId = some s) (ht : nodeMapGet ns e.targetNodeId = some t)
    (hx : s.x = t.x) :
    resolveEdgeGeometry ns e = some
      { x1 := s.x - NODE_WIDTH / 2,
        y1 := (s.y - nodeHeight s.columns / 2) + getColumnYOffset ns e.sourceNodeId e.sourceColumn,
        x2 := t.x + NODE_WIDTH / 2 + markerOffset,
        y2 := (t.y - nodeHeight t.columns / 2)
          + getColumnYOffset ns e.targetNodeId e.targetColumn } := by
  unfold resolveEdgeGeometry
  rw [hs, ht]
  dsimp only
  rw [if_neg (by rw [hx]; exact lt_irrefl _)]

/-- Witness for C10: a self-loop edge on the single laid-out node `lnA`. -/
theorem backedge_on_equal_x_witness :
    resolveEdgeGeometry [lnA] (cEdge "A" "A") = some
      { x1 := lnA.x - NODE_WIDTH / 2,
        y1 := (lnA.y - nodeHeight lnA.columns / 2) + getColumnYOffset [lnA] "A" "a",
        x2 := lnA.x + NODE_WIDTH / 2 + markerOffset,
        y2 := (lnA.y - nodeHeight lnA.columns / 2) + getColumnYOffset [lnA] "A" "a" } :=
  backedge_on_equal_x [lnA] (cEdge "A" "A") lnA lnA rfl rfl rfl

end Lineage

namespace Lineage

/-! ## Component offsets: order and advancement (C5) -/

theorem offsetsLoop_head (data : LineageData) (comps : List (List Node)) (off : Nat)
    (c : List Node) (o : Nat) (h : (offsetsLoop data comps off).get? 0 = some (c, o)) :
    o = off ∧ comps.get? 0 = some c := by
  cases comps with
  | nil => simp [offsetsLoop] at h
  | cons c0 rest =>
    simp only [offsetsLoop, List.get?_cons_zero] at h
    obtain ⟨h1, h2⟩ := Prod.mk.injEq .. ▸ (Option.some.injEq .. ▸ h)
    exact ⟨h2.symm, by rw [List.get?_cons_zero, h1]⟩

theorem offsetsLoop_fst (data : LineageData) :
    ∀ (comps : List (List Node)) (off k : Nat) (c : List Node) (o : Nat),
      (offsetsLoop data comps off).get? k = some (c, o) → comps.get? k = some c := by
  intro comps
  induction comps with
  | nil => intro off k c o h; simp [offsetsLoop] at h
  | cons c0 rest ih =>
    intro off k c o h
    cases k with
    | zero => exact (offsetsLoop_head data (c0 :: rest) off c o h).2
    | succ k =>
      simp only [offsetsLoop, List.get?_cons_succ] at h
      simpa using ih _ k c o h

theorem offsetsLoop_total (data : LineageData) :
    ∀ (comps : List (List Node)) (off k : Nat) (c : List Node),
      comps.get? k = some c → ∃ o, (offsetsLoop data comps off).get? k = some (c, o) := by
  intro comps
  induction comps with
  | nil => intro off k c h; simp at h
  | cons c0 rest ih =>
    intro off k c h
    cases k with
    | zero =>
      rw [List.get?_cons_zero] at h
      obtain rfl : c0 = c := by injection h
      exact ⟨off, rfl⟩
    | succ k =>
      rw [List.get?_cons_succ] at h
      obtain ⟨o, ho⟩ := ih (off + compMaxDepth data c0 + 2) k c h
      exact ⟨o, by simpa [offsetsLoop] using ho⟩

theorem offsetsLoop_ge (data : LineageData) :
    ∀ (comps : List (List Node)) (off k : Nat) (c : List Node) (o : Nat),
      (offsetsLoop data comps off).get? k = some (c, o) → off ≤ o := by
  intro comps
  induction comps with
  | nil => intro off k c o h; simp [offsetsLoop] at h
  | cons c0 rest ih =>
    intro off k c o h
    cases k with
    | zero => exact le_of_eq (offsetsLoop_head data (c0 :: rest) off c o h).1.symm
    | succ k =>
      simp only [offsetsLoop, List.get?_cons_succ] at h
      have h2 := ih (off + compMaxDepth data c0 + 2) k c o h
      omega

theorem offsetsLoop_strict (data : LineageData) :
    ∀ (comps : List (List Node)) (off i j : Nat) (cA : List Node) (oA : Nat)
      (cB : List Node) (oB : Nat), i < j →
      (offsetsLoop data comps off).get? i = some (cA, oA) →
      (offsetsLoop data comps off).get? j = some (cB, oB) → oA < oB := by
  intro comps
  induction comps with
  | nil => intro off i j cA oA cB oB hij h1 h2; simp [offsetsLoop] at h1
  | cons c0 rest ih =>
    intro off i j cA oA cB oB hij h1 h2
    cases i with
    | zero =>
      obtain ⟨rfl, -⟩ := offsetsLoop_head data (c0 :: rest) off cA oA h1
      cases j with
      | zero => omega
      | succ j =>
        simp only [offsetsLoop, List.get?_cons_succ] at h2
        have h3 := offsetsLoop_ge data rest (oA + compMaxDepth data c0 + 2) j cB oB h2
        omega
    | succ i =>
      cases j with
      | zero => omega
      | succ j =>
        simp only [offsetsLoop, List.get?_cons_succ] at h1 h2
        exact ih _ i j cA oA cB oB (by omega) h1 h2

theorem offsetsLoop_succ (data : LineageData) :
    ∀ (comps : List (List Node)) (off k : Nat) (c : List Node) (o : Nat)
      (c2 : List Node) (o2 : Nat),
      (offsetsLoop data comps off).get? k = some (c, o) →
      (offsetsLoop data comps off).get? (k + 1) = some (c2, o2) →
      o2 = o + compMaxDepth data c + 2 := by
  intro comps
  induction comps with
  | nil => intro off k c o c2 o2 h1 h2; simp [offsetsLoop] at h1
  | cons c0 rest ih =>
    intro off k c o c2 o2 h1 h2
    cases k with
    | zero =>
      obtain ⟨rfl, hc⟩ := offsetsLoop_head data (c0 :: rest) off c o h1
      rw [List.get?_cons_zero] at hc
      obtain rfl : c0 = c := by injection hc
      simp only [offsetsLoop, List.get?_cons_succ] at h2
      exact ((offsetsLoop_head data rest _ c2 o2 h2).1)
    | succ k =>
      simp only [offsetsLoop, List.get?_cons_succ] at h1 h2
      exact ih _ k c o c2 o2 h1 h2

theorem sortedComponents_mono (data : LineageData) (i j : Nat) (cA cB : List Node)
    (hij : i < j) (hA : (sortedComponents data).get? i = some cA)
    (hB : (sortedComponents data).get? j = some cB) :
    minOrder data.nodes cA ≤ minOrder data.nodes cB := by
  have hs : (sortedComponents data).Pairwise
      (fun a b => minOrder data.nodes a ≤ minOrder data.nodes b) :=
    sortByKey_sorted (minOrder data.nodes) (components data)
  rw [List.pairwise_iff_get] at hs
  obtain ⟨hi, hgi⟩ := List.get?_eq_some.1 hA
  obtain ⟨hj, hgj⟩ := List.get?_eq_some.1 hB
  have h2 := hs ⟨i, hi⟩ ⟨j, hj⟩ hij
  rw [hgi, hgj] at h2
  exact h2

/-- C5 (amended): component depth offsets follow the sorted component order —
whenever the minimum original-order index of component `cA` is smaller than
that of component `cB`, `cA`'s depth offset is strictly smaller; and each
successive sorted component's offset advances by the previous component's
`maxDepth + 2`. -/
theorem component_offset_order (data : LineageData) :
    (∀ (i j : Nat) (cA : List Node) (oA : Nat) (cB : List Node) (oB : Nat),
      (componentOffsets data).get? i = some (cA, oA) →
      (componentOffsets data).get? j = some (cB, oB) →
      minOrder data.nodes cA < minOrder data.nodes cB → oA < oB)
    ∧ (∀ (k : Nat) (c : List Node) (o : Nat) (c2 : List Node) (o2 : Nat),
      (componentOffsets data).get? k = some (c, o) →
      (componentOffsets data).get? (k + 1) = some (c2, o2) →
      o2 = o + compMaxDepth data c + 2) := by
  constructor
  · intro i j cA oA cB oB hA hB hmin
    have hci : (sortedComponents data).get? i = some cA := offsetsLoop_fst data _ 0 i cA oA hA
    have hcj : (sortedComponents data).get? j = some cB := offsetsLoop_fst data _ 0 j cB oB hB
    have hij : i < j := by
      by_contra hle
      push_neg at hle
      rcases Nat.lt_or_ge j i with hji | hji
      · exact absurd (sortedComponents_mono data j i cB cA hji hcj hci) (by omega)
      · have : i = j := by omega
        subst this
        rw [hci] at hcj
        obtain rfl : cA = cB := by injection hcj
        omega
    exact offsetsLoop_strict data _ 0 i j cA oA cB oB hij hA hB
  · intro k c o c2 o2 h1 h2
    exact offsetsLoop_succ data _ 0 k c o c2 o2 h1 h2

/-- Witness for C5 (amended) at the spec's two-disconnected-pairs scenario
`{A→B}, {C→D}`: the first component's offset 0 is strictly below the second
component's offset 3, which equals `0 + maxDepth + 2 = 3`. -/
theorem component_offset_order_witness :
    (componentOffsets Gpairs).get? 0 = some ([tNode "A", tNode "B"], 0)
    ∧ (componentOffsets Gpairs).get? 1 = some ([tNode "C", tNode "D"], 3)
    ∧ (0 : Nat) < 3 ∧ 3 = 0 + compMaxDepth Gpairs [tNode "A", tNode "B"] + 2 := by
  refine ⟨by decide, by decide, ?_, ?_⟩
  · exact (component_offset_order Gpairs).1 0 1 [tNode "A", tNode "B"] 0
      [tNode "C", tNode "D"] 3 (by decide) (by decide) (by decide)
  · exact (component_offset_order Gpairs).2 0 [tNode "A", tNode "B"] 0
      [tNode "C", tNode "D"] 3 (by decide) (by decide)

/-- Counterexample to C5 as stated: in `Gc5` the node list is `C, A, B, D`
with components `{C,B}` (offset 0) and `{A,D}` (offset 3).  Node `A` (index
1) appears before node `B` (index 2) and they lie in different components,
yet `A`'s component's depth offset 3 is NOT `≤` `B`'s component's depth
offset 0. -/
theorem component_ordering_counterexample :
    Gc5.nodes.get? 1 = some (tNode "A") ∧ Gc5.nodes.get? 2 = some (tNode "B")
    ∧ componentOffsets Gc5 = [([tNode "C", tNode "B"], 0), ([tNode "A", tNode "D"], 3)]
    ∧ offsetOfNode Gc5 "A" = some 3 ∧ offsetOfNode Gc5 "B" = some 0
    ∧ ¬(3 ≤ (0 : Nat)) := by
  decide

end Lineage

namespace Lineage

/-! ## The topological queue drains within its budget (C2) -/

theorem find?_cons_eq {α : Type} (p : α → Bool) (a : α) (l : List α) :
    List.find? p (a :: l) = if p a then some a else List.find? p l := by
  by_cases h : p a = true
  · rw [if_pos h]
    exact List.find?_cons_of_pos _ h
  · rw [if_neg h]
    exact List.find?_cons_of_neg _ (by simpa using h)

theorem lookupA_cons (p : String × Int) (m : List (String × Int)) (x : String) :
    lookupA (p :: m) x = if p.1 = x then some p.2 else lookupA m x := by
  unfold lookupA
  rw [find?_cons_eq]
  by_cases h : p.1 = x
  · simp [h]
  · simp [h]

theorem setA_cons (p : String × Int) (m : List (String × Int)) (k : String) (v : Int) :
    setA (p :: m) k v = if p.1 = k then (k, v) :: m else p :: setA m k v := rfl

theorem lookupA_setA (m : List (String × Int)) (k : String) (v : Int) (x : String) :
    lookupA (setA m k v) x = if x = k then some v else lookupA m x := by
  induction m with
  | nil =>
    show lookupA [(k, v)] x = _
    rw [lookupA_cons]
    by_cases h : x = k
    · rw [if_pos (show (k, v).1 = x from h.symm), if_pos h]
    · rw [if_neg (show ¬((k, v).1 = x) from fun hh => h hh.symm), if_neg h]
  | cons p rest ih =>
    rw [setA_cons]
    by_cases hp : p.1 = k
    · rw [if_pos hp, lookupA_cons, lookupA_cons]
      by_cases hx : x = k
      · rw [if_pos (show (k, v).1 = x from hx.symm), if_pos hx]
      · rw [if_neg (show ¬((k, v).1 = x) from fun hh => hx hh.symm), if_neg hx,
          if_neg (show ¬(p.1 = x) from fun hh => hx (hh.symm.trans hp))]
    · rw [if_neg hp, lookupA_cons, lookupA_cons]
      by_cases hpx : p.1 = x
      · have hx : ¬(x = k) := fun hh => hp (hpx.trans hh)
        rw [if_pos hpx, if_neg hx, if_pos hpx]
      · rw [if_neg hpx, if_neg hpx, ih]

theorem degSum_cons (p : String × Int) (m : List (String × Int)) :
    degSum (p :: m) = p.2.toNat + degSum m := by
  simp [degSum]

theorem degSum_setA (m : List (String × Int)) (k : String) (v : Int) :
    degSum (setA m k v) + ((lookupA m k).map Int.toNat).getD 0 = degSum m + v.toNat := by
  induction m with
  | nil =>
    show degSum [(k, v)] + 0 = degSum [] + v.toNat
    rw [degSum_cons]
    omega
  | cons p rest ih =>
    rw [setA_cons, lookupA_cons]
    by_cases hp : p.1 = k
    · rw [if_pos hp, if_pos hp, degSum_cons, degSum_cons]
      simp only [Option.map_some', Option.getD_some]
      omega
    · rw [if_neg hp, if_neg hp, degSum_cons, degSum_cons]
      omega

theorem relax_measure (d : Nat) (s : TopoSt) (v : String) :
    topoMeasure (relax d s v) ≤ topoMeasure s := by
  unfold relax topoMeasure
  rcases h : lookupA s.inDeg v with _ | k <;> dsimp only
  · have hds := degSum_setA s.inDeg v (-1)
    rw [h] at hds
    simp only [Option.map_none', Option.getD_none] at hds
    omega
  · have hds := degSum_setA s.inDeg v (k - 1)
    rw [h] at hds
    simp only [Option.map_some', Option.getD_some] at hds
    by_cases hk : k - 1 = 0
    · rw [if_pos hk]
      simp only [List.length_append, List.length_cons, List.length_nil]
      omega
    · rw [if_neg hk]
      omega

theorem foldl_relax_measure (d : Nat) :
    ∀ (L : List String) (s : TopoSt), topoMeasure (L.foldl (relax d) s) ≤ topoMeasure s := by
  intro L
  induction L with
  | nil => intro s; exact le_refl _
  | cons v rest ih =>
    intro s
    exact le_trans (ih (relax d s v)) (relax_measure d s v)

theorem topoStep_measure (key : String → Nat) (adjf : String → List String)
    (s : TopoSt) (u : String) : topoMeasure (topoStep key adjf s u) ≤ topoMeasure s := by
  unfold topoStep
  exact le_trans (foldl_relax_measure _ _ _) (le_of_eq rfl)

theorem topoRunF_drains (key : String → Nat) (adjf : String → List String) :
    ∀ (fuel : Nat) (s : TopoSt), topoMeasure s ≤ fuel →
      (topoRunF key adjf fuel s).queue = [] := by
  intro fuel
  induction fuel with
  | zero =>
    intro s h
    unfold topoMeasure at h
    unfold topoRunF
    exact List.length_eq_zero.1 (by omega)
  | succ fuel ih =>
    intro s h
    unfold topoRunF
    rcases hq : s.queue with _ | ⟨u, rest⟩
    · dsimp only
      exact hq
    · dsimp only
      apply ih
      have h2 := topoStep_measure key adjf { s with queue := rest } u
      have h3 : topoMeasure { s with queue := rest } + 1 = topoMeasure s := by
        unfold topoMeasure
        dsimp only
        rw [hq]
        simp only [List.length_cons]
        omega
      omega

theorem topoRun_queue (key : String → Nat) (adjf : String → List String) (s : TopoSt) :
    (topoRun key adjf s).queue = [] :=
  topoRunF_drains key adjf (topoMeasure s) s (le_refl _)

theorem compFinalState_queue (data : LineageData) (comp : List Node) :
    (compFinalState data comp).queue = [] :=
  topoRun_queue _ _ _

/-! ## Counting helpers for the BFS termination budget -/

theorem countP_lt_of_mem {α : Type} {p q : α → Bool} {l : List α} (a : α) (ha : a ∈ l)
    (hq : q a = true) (hp : p a = false)
    (himp : ∀ x ∈ l, p x = true → q x = true) :
    l.countP p < l.countP q := by
  induction l with
  | nil => simp at ha
  | cons b t ih =>
    simp only [List.countP_cons]
    rcases List.mem_cons.1 ha with rfl | ha
    · rw [hp, hq, if_neg (by simp), if_pos rfl]
      have h2 := List.countP_mono_left (l := t)
        (fun x hx => himp x (List.mem_cons_of_mem _ hx))
      omega
    · have h2 := ih ha (fun x hx => himp x (List.mem_cons_of_mem _ hx))
      have h3 : (if p b = true then 1 else 0) ≤ (if q b = true then 1 else 0) := by
        by_cases hb : p b = true
        · rw [if_pos hb, if_pos (himp b (List.mem_cons_self _ _) hb)]
        · rw [if_neg hb]
          omega
      omega

theorem unvisitedCount_mono (nodes : List Node) (visited : List String) (v : String) :
    unvisitedCount nodes (v :: visited) ≤ unvisitedCount nodes visited := by
  unfold unvisitedCount
  apply List.countP_mono_left
  intro n _ h
  simp only [Bool.not_eq_true', List.contains_cons] at h ⊢
  simp only [Bool.or_eq_false_iff] at h
  exact h.2

theorem unvisitedCount_cons_lt (nodes : List Node) (visited : List String) (v : String)
    (vn : Node) (hvn : vn ∈ nodes) (hid : vn.id = v) (hv : v ∉ visited) :
    unvisitedCount nodes (v :: visited) < unvisitedCount nodes visited := by
  unfold unvisitedCount
  refine countP_lt_of_mem vn hvn ?_ ?_ ?_
  · simp only [Bool.not_eq_true']
    rw [hid]
    simpa using hv
  · simp only [Bool.not_eq_true', List.contains_cons]
    rw [hid]
    simp
  · intro x _ h
    simp only [Bool.not_eq_true', List.contains_cons, Bool.or_eq_false_iff] at h
    simp only [Bool.not_eq_true']
    exact h.2

end Lineage

namespace Lineage

/-! ## The component BFS: visited growth, nodup, coverage -/

theorem enqueueNbrs_spec (nodes : List Node) :
    ∀ (nbrs visited : List String),
      (∀ x ∈ visited, x ∈ (enqueueNbrs nodes visited nbrs).1)
      ∧ (∀ p ∈ (enqueueNbrs nodes visited nbrs).2,
          p ∈ nodes ∧ p.id ∈ (enqueueNbrs nodes visited nbrs).1 ∧ p.id ∉ visited)
      ∧ ((enqueueNbrs nodes visited nbrs).2.map (fun n => n.id)).Nodup
      ∧ (∀ x ∈ (enqueueNbrs nodes visited nbrs).1,
          x ∈ visited ∨ (∃ p ∈ (enqueueNbrs nodes visited nbrs).2, p.id = x)
            ∨ nodes.find? (fun n => n.id = x) = none)
      ∧ (enqueueNbrs nodes visited nbrs).2.length
          + unvisitedCount nodes (enqueueNbrs nodes visited nbrs).1
          ≤ unvisitedCount nodes visited := by
  intro nbrs
  induction nbrs with
  | nil =>
    intro visited
    refine ⟨fun x hx => hx, ?_, ?_, fun x hx => Or.inl hx, ?_⟩
    · intro p hp
      exact absurd hp (by simp [enqueueNbrs])
    · simp [enqueueNbrs]
    · simp [enqueueNbrs]
  | cons v rest ih =>
    intro visited
    by_cases hv : v ∈ visited
    · have heq : enqueueNbrs nodes visited (v :: rest) = enqueueNbrs nodes visited rest := by
        simp only [enqueueNbrs]
        rw [if_pos hv]
      rw [heq]
      exact ih visited
    · rcases hf : nodes.find? (fun n => n.id = v) with _ | vn
      · have heq : enqueueNbrs nodes visited (v :: rest)
            = enqueueNbrs nodes (v :: visited) rest := by
          simp only [enqueueNbrs]
          rw [if_neg hv, hf]
        rw [heq]
        obtain ⟨ih1, ih2, ih3, ih4, ih5⟩ := ih (v :: visited)
        refine ⟨?_, ?_, ih3, ?_, ?_⟩
        · intro x hx
          exact ih1 x (List.mem_cons_of_mem _ hx)
        · intro p hp
          obtain ⟨hpn, hpi, hpv⟩ := ih2 p hp
          exact ⟨hpn, hpi, fun hc => hpv (List.mem_cons_of_mem _ hc)⟩
        · intro x hx
          rcases ih4 x hx with h1 | h2 | h3
          · rcases List.mem_cons.1 h1 with rfl | h1
            · exact Or.inr (Or.inr hf)
            · exact Or.inl h1
          · exact Or.inr (Or.inl h2)
          · exact Or.inr (Or.inr h3)
        · exact le_trans ih5 (unvisitedCount_mono nodes visited v)
      · have hvn_id : vn.id = v := by simpa using List.find?_some hf
        have hvn_mem : vn ∈ nodes := List.mem_of_find?_eq_some hf
        have heq : enqueueNbrs nodes visited (v :: rest)
            = ((enqueueNbrs nodes (v :: visited) rest).1,
                vn :: (enqueueNbrs nodes (v :: visited) rest).2) := by
          simp only [enqueueNbrs]
          rw [if_neg hv, hf]
        rw [heq]
        dsimp only
        obtain ⟨ih1, ih2, ih3, ih4, ih5⟩ := ih (v :: visited)
        refine ⟨?_, ?_, ?_, ?_, ?_⟩
        · intro x hx
          exact ih1 x (List.mem_cons_of_mem _ hx)
        · intro p hp
          rcases List.mem_cons.1 hp with rfl | hp
          · refine ⟨hvn_mem, ?_, ?_⟩
            · rw [hvn_id]
              exact ih1 v (List.mem_cons_self _ _)
            · rw [hvn_id]
              exact hv
          · obtain ⟨hpn, hpi, hpv⟩ := ih2 p hp
            exact ⟨hpn, hpi, fun hc => hpv (List.mem_cons_of_mem _ hc)⟩
        · rw [List.map_cons]
          refine List.nodup_cons.mpr ⟨?_, ih3⟩
          intro hmem
          obtain ⟨p, hp, hpid⟩ := List.mem_map.1 hmem
          have hpv := (ih2 p hp).2.2
          rw [hpid, hvn_id] at hpv
          exact hpv (List.mem_cons_self _ _)
        · intro x hx
          rcases ih4 x hx with h1 | h2 | h3
          · rcases List.mem_cons.1 h1 with rfl | h1
            · exact Or.inr (Or.inl ⟨vn, List.mem_cons_self _ _, hvn_id⟩)
            · exact Or.inl h1
          · obtain ⟨p, hp, hpx⟩ := h2
            exact Or.inr (Or.inl ⟨p, List.mem_cons_of_mem _ hp, hpx⟩)
          · exact Or.inr (Or.inr h3)
        · have hlt := unvisitedCount_cons_lt nodes visited v vn hvn_mem hvn_id hv
          rw [List.length_cons]
          omega

theorem bfsLoopF_spec (nodes : List Node) (adjf : String → List String) :
    ∀ (fuel : Nat) (visited : List String) (queue : List Node),
      (queue.map (fun n => n.id)).Nodup →
      (∀ u ∈ queue, u.id ∈ visited) →
      queue.length + unvisitedCount nodes visited ≤ fuel →
      (∀ x ∈ visited, x ∈ (bfsLoopF nodes adjf fuel visited queue).2)
      ∧ (∀ n ∈ (bfsLoopF nodes adjf fuel visited queue).1,
          n.id ∈ (bfsLoopF nodes adjf fuel visited queue).2)
      ∧ ((bfsLoopF nodes adjf fuel visited queue).1.map (fun n => n.id)).Nodup
      ∧ (∀ x ∈ (bfsLoopF nodes adjf fuel visited queue).2,
          x ∈ visited ∨ (∃ m ∈ (bfsLoopF nodes adjf fuel visited queue).1, m.id = x)
            ∨ nodes.find? (fun n => n.id = x) = none)
      ∧ (∀ m ∈ (bfsLoopF nodes adjf fuel visited queue).1,
          m.id ∈ visited → m.id ∈ queue.map (fun n => n.id))
      ∧ (∀ u ∈ queue, u ∈ (bfsLoopF nodes adjf fuel visited queue).1) := by
  intro fuel
  induction fuel with
  | zero =>
    intro visited queue h1 h2 h3
    have hq : queue = [] := List.length_eq_zero.1 (by omega)
    subst hq
    refine ⟨fun x hx => hx, ?_, ?_, fun x hx => Or.inl hx, ?_, ?_⟩
    · intro n hn
      exact absurd hn (by simp [bfsLoopF])
    · simp [bfsLoopF]
    · intro m hm
      exact absurd hm (by simp [bfsLoopF])
    · intro u hu
      exact absurd hu (by simp)
  | succ fuel ih =>
    intro visited queue h1 h2 h3
    rcases queue with _ | ⟨u, rest⟩
    · refine ⟨fun x hx => hx, ?_, ?_, fun x hx => Or.inl hx, ?_, ?_⟩
      · intro n hn
        exact absurd hn (by simp [bfsLoopF])
      · simp [bfsLoopF]
      · intro m hm
        exact absurd hm (by simp [bfsLoopF])
      · intro u hu
        exact absurd hu (by simp)
    · have heq : bfsLoopF nodes adjf (fuel + 1) visited (u :: rest)
          = (u :: (bfsLoopF nodes adjf fuel (enqueueNbrs nodes visited (adjf u.id)).1
                (rest ++ (enqueueNbrs nodes visited (adjf u.id)).2)).1,
              (bfsLoopF nodes adjf fuel (enqueueNbrs nodes visited (adjf u.id)).1
                (rest ++ (enqueueNbrs nodes visited (adjf u.id)).2)).2) := rfl
      rw [heq]
      dsimp only
      obtain ⟨e1, e2, e3, e4, e5⟩ := enqueueNbrs_spec nodes (adjf u.id) visited
      have hrestn : (rest.map (fun n => n.id)).Nodup := by
        rw [List.map_cons] at h1
        exact (List.nodup_cons.1 h1).2
      have huid : u.id ∉ rest.map (fun n => n.id) := by
        rw [List.map_cons] at h1
        exact (List.nodup_cons.1 h1).1
      have prem1 : ((rest ++ (enqueueNbrs nodes visited (adjf u.id)).2).map
          (fun n => n.id)).Nodup := by
        rw [List.map_append]
        refine List.Nodup.append hrestn e3 ?_
        intro x hx1 hx2
        obtain ⟨m1, hm1, hm1id⟩ := List.mem_map.1 hx1
        obtain ⟨p, hp, hpid⟩ := List.mem_map.1 hx2
        have hxv : x ∈ visited := hm1id ▸ h2 m1 (List.mem_cons_of_mem _ hm1)
        exact (e2 p hp).2.2 (hpid ▸ hxv)
      have prem2 : ∀ w ∈ rest ++ (enqueueNbrs nodes visited (adjf u.id)).2,
          w.id ∈ (enqueueNbrs nodes visited (adjf u.id)).1 := by
        intro w hw
        rcases List.mem_append.1 hw with hw | hw
        · exact e1 w.id (h2 w (List.mem_cons_of_mem _ hw))
        · exact (e2 w hw).2.1
      have prem3 : (rest ++ (enqueueNbrs nodes visited (adjf u.id)).2).length
          + unvisitedCount nodes (enqueueNbrs nodes visited (adjf u.id)).1 ≤ fuel := by
        rw [List.length_append]
        rw [List.length_cons] at h3
        omega
      obtain ⟨b1, b2, b3, b4, b5, b6⟩ := ih (enqueueNbrs nodes visited (adjf u.id)).1
        (rest ++ (enqueueNbrs nodes visited (adjf u.id)).2) prem1 prem2 prem3
      have hvisF : ∀ x ∈ visited, x ∈ (bfsLoopF nodes adjf fuel
          (enqueueNbrs nodes visited (adjf u.id)).1
          (rest ++ (enqueueNbrs nodes visited (adjf u.id)).2)).2 :=
        fun x hx => b1 x (e1 x hx)
      refine ⟨hvisF, ?_, ?_, ?_, ?_, ?_⟩
      · intro n hn
        rcases List.mem_cons.1 hn with rfl | hn
        · exact hvisF n.id (h2 n (List.mem_cons_self _ _))
        · exact b2 n hn
      · rw [List.map_cons]
        refine List.nodup_cons.mpr ⟨?_, b3⟩
        intro hmem
        obtain ⟨m, hm, hmid⟩ := List.mem_map.1 hmem
        have huv : u.id ∈ visited := h2 u (List.mem_cons_self _ _)
        have hm2 := b5 m hm (by rw [hmid]; exact e1 u.id huv)
        rw [hmid, List.map_append] at hm2
        rcases List.mem_append.1 hm2 with hm3 | hm3
        · exact huid hm3
        · obtain ⟨p, hp, hpid⟩ := List.mem_map.1 hm3
          exact (e2 p hp).2.2 (hpid ▸ huv)
      · intro x hx
        rcases b4 x hx with h4 | h4 | h4
        · rcases e4 x h4 with h5 | h5 | h5
          · exact Or.inl h5
          · obtain ⟨p, hp, hpx⟩ := h5
            refine Or.inr (Or.inl ⟨p, ?_, hpx⟩)
            exact List.mem_cons_of_mem _ (b6 p (List.mem_append_right _ hp))
          · exact Or.inr (Or.inr h5)
        · obtain ⟨m, hm, hmx⟩ := h4
          exact Or.inr (Or.inl ⟨m, List.mem_cons_of_mem _ hm, hmx⟩)
        · exact Or.inr (Or.inr h4)
      · intro m hm hmv
        rcases List.mem_cons.1 hm with rfl | hm
        · exact List.mem_map_of_mem _ (List.mem_cons_self _ _)
        · have hm2 := b5 m hm (e1 m.id hmv)
          rw [List.map_append] at hm2
          rcases List.mem_append.1 hm2 with hm3 | hm3
          · rw [List.map_cons]
            exact List.mem_cons_of_mem _ hm3
          · obtain ⟨p, hp, hpid⟩ := List.mem_map.1 hm3
            exact absurd (hpid ▸ hmv) (e2 p hp).2.2
      · intro w hw
        rcases List.mem_cons.1 hw with rfl | hw
        · exact List.mem_cons_self _ _
        · exact List.mem_cons_of_mem _ (b6 w (List.mem_append_left _ hw))

end Lineage

namespace Lineage

/-! ## The component loop: nodup, disjointness, coverage -/

theorem componentsLoop_spec (nodes : List Node) (adjf : String → List String) :
    ∀ (startList : List Node) (visited : List String),
      (∀ n ∈ startList, n ∈ nodes) →
      (∀ comp ∈ componentsLoop nodes adjf startList visited,
          (comp.map (fun n => n.id)).Nodup)
      ∧ (∀ comp ∈ componentsLoop nodes adjf startList visited, ∀ m ∈ comp, m.id ∉ visited)
      ∧ (componentsLoop nodes adjf startList visited).Pairwise
          (fun ca cb => ∀ x ∈ ca, ∀ y ∈ cb, x.id ≠ y.id)
      ∧ (∀ n ∈ startList, n.id ∈ visited ∨
          ∃ comp ∈ componentsLoop nodes adjf startList visited, ∃ m ∈ comp, m.id = n.id) := by
  intro startList
  induction startList with
  | nil =>
    intro visited hstart
    refine ⟨?_, ?_, ?_, ?_⟩ <;> simp [componentsLoop]
  | cons s rest ih =>
    intro visited hstart
    have hstart2 : ∀ n ∈ rest, n ∈ nodes := fun n hn => hstart n (List.mem_cons_of_mem _ hn)
    by_cases hs : s.id ∈ visited
    · have heq : componentsLoop nodes adjf (s :: rest) visited
          = componentsLoop nodes adjf rest visited := by
        simp only [componentsLoop]
        rw [if_pos hs]
      rw [heq]
      obtain ⟨c1, c2, c3, c4⟩ := ih visited hstart2
      refine ⟨c1, c2, c3, ?_⟩
      intro n hn
      rcases List.mem_cons.1 hn with rfl | hn
      · exact Or.inl hs
      · exact c4 n hn
    · have heq : componentsLoop nodes adjf (s :: rest) visited
          = (bfsLoop nodes adjf (s.id :: visited) [s]).1
            :: componentsLoop nodes adjf rest (bfsLoop nodes adjf (s.id :: visited) [s]).2 := by
        simp only [componentsLoop]
        rw [if_neg hs]
      rw [heq]
      have hbfs := bfsLoopF_spec nodes adjf
        (([s] : List Node).length + unvisitedCount nodes (s.id :: visited))
        (s.id :: visited) [s] (by simp) (by simp) (le_refl _)
      rw [show bfsLoopF nodes adjf
          (([s] : List Node).length + unvisitedCount nodes (s.id :: visited))
          (s.id :: visited) [s] = bfsLoop nodes adjf (s.id :: visited) [s] from rfl] at hbfs
      obtain ⟨b1, b2, b3, b4, b5, b6⟩ := hbfs
      obtain ⟨c1, c2, c3, c4⟩ := ih (bfsLoop nodes adjf (s.id :: visited) [s]).2 hstart2
      refine ⟨?_, ?_, ?_, ?_⟩
      · intro comp hcomp
        rcases List.mem_cons.1 hcomp with rfl | hcomp
        · exact b3
        · exact c1 comp hcomp
      · intro comp hcomp m hm hmv
        rcases List.mem_cons.1 hcomp with rfl | hcomp
        · have h2 := b5 m hm (List.mem_cons_of_mem _ hmv)
          simp only [List.map_cons, List.map_nil, List.mem_singleton] at h2
          rw [h2] at hmv
          exact hs hmv
        · exact c2 comp hcomp m hm (b1 m.id (List.mem_cons_of_mem _ hmv))
      · refine List.Pairwise.cons ?_ c3
        intro comp2 hcomp2 x hx y hy hxy
        have hyv := c2 comp2 hcomp2 y hy
        have hxv := b2 x hx
        rw [hxy] at hxv
        exact hyv hxv
      · intro n hn
        rcases List.mem_cons.1 hn with rfl | hn
        · exact Or.inr ⟨(bfsLoop nodes adjf (n.id :: visited) [n]).1, List.mem_cons_self _ _,
            n, b6 n (List.mem_cons_self _ _), rfl⟩
        · rcases c4 n hn with h | h
          · rcases b4 n.id h with h2 | h2 | h2
            · rcases List.mem_cons.1 h2 with h3 | h3
              · refine Or.inr ⟨(bfsLoop nodes adjf (s.id :: visited) [s]).1,
                  List.mem_cons_self _ _, s, b6 s (List.mem_cons_self _ _), h3.symm⟩
              · exact Or.inl h3
            · obtain ⟨m, hm, hmid⟩ := h2
              exact Or.inr ⟨(bfsLoop nodes adjf (s.id :: visited) [s]).1,
                List.mem_cons_self _ _, m, hm, hmid⟩
            · have := List.find?_eq_none.1 h2 n (hstart n (List.mem_cons_of_mem _ hn))
              simp at this
          · obtain ⟨comp, hcomp, m, hm, hmid⟩ := h
            exact Or.inr ⟨comp, List.mem_cons_of_mem _ hcomp, m, hm, hmid⟩

theorem components_facts (data : LineageData) :
    (∀ comp ∈ components data, (comp.map (fun n => n.id)).Nodup)
    ∧ (components data).Pairwise (fun ca cb => ∀ x ∈ ca, ∀ y ∈ cb, x.id ≠ y.id)
    ∧ (∀ n ∈ data.nodes, ∃ comp ∈ components data, ∃ m ∈ comp, m.id = n.id) := by
  obtain ⟨c1, c2, c3, c4⟩ := componentsLoop_spec data.nodes (undirAdj data) data.nodes []
    (fun n hn => hn)
  refine ⟨c1, c3, ?_⟩
  intro n hn
  rcases c4 n hn with h | h
  · simp at h
  · exact h

theorem sortedComponents_nodup (data : LineageData) (comp : List Node)
    (hc : comp ∈ sortedComponents data) : (comp.map (fun n => n.id)).Nodup :=
  (components_facts data).1 comp (mem_sortByKey.1 hc)

theorem sortedComponents_disjoint (data : LineageData) :
    (sortedComponents data).Pairwise (fun ca cb => ∀ x ∈ ca, ∀ y ∈ cb, x.id ≠ y.id) := by
  have hperm : (sortedComponents data).Perm (components data) :=
    sortByKey_perm (minOrder data.nodes) (components data)
  refine (hperm.pairwise_iff ?_).2 (components_facts data).2.1
  intro a b hab y hy x hx
  exact fun hh => hab x hx y hy hh.symm

theorem sortedComponents_cover (data : LineageData) (n : Node) (hn : n ∈ data.nodes) :
    ∃ comp ∈ sortedComponents data, ∃ m ∈ comp, m.id = n.id := by
  obtain ⟨comp, hc, m, hm, hmid⟩ := (components_facts data).2.2 n hn
  exact ⟨comp, mem_sortByKey.2 hc, m, hm, hmid⟩

/-! ## Reading the final depth map -/

theorem foldWrite_not_mem (g : String → Nat) :
    ∀ (comp : List Node) (fd : String → Option Nat) (x : String), x ∉ nodeIds comp →
      (comp.foldl (fun m n => fun y => if y = n.id then some (g n.id) else m y) fd) x = fd x := by
  intro comp
  induction comp with
  | nil => intro fd x _; rfl
  | cons n0 rest ih =>
    intro fd x hx
    have hx1 : x ≠ n0.id := by
      intro hh
      exact hx (by rw [hh]; exact List.mem_map_of_mem _ (List.mem_cons_self _ _))
    have hx2 : x ∉ nodeIds rest := by
      intro hh
      apply hx
      obtain ⟨m, hm, hmid⟩ := List.mem_map.1 hh
      exact List.mem_map.2 ⟨m, List.mem_cons_of_mem _ hm, hmid⟩
    rw [List.foldl_cons, ih _ x hx2]
    rw [if_neg hx1]

theorem foldWrite_mem (g : String → Nat) :
    ∀ (comp : List Node) (fd : String → Option Nat) (x : String), x ∈ nodeIds comp →
      (comp.foldl (fun m n => fun y => if y = n.id then some (g n.id) else m y) fd) x
        = some (g x) := by
  intro comp
  induction comp with
  | nil => intro fd x hx; simp [nodeIds] at hx
  | cons n0 rest ih =>
    intro fd x hx
    by_cases hrest : x ∈ nodeIds rest
    · rw [List.foldl_cons]
      exact ih _ x hrest
    · have hx1 : x = n0.id := by
        obtain ⟨m, hm, hmid⟩ := List.mem_map.1 hx
        rcases List.mem_cons.1 hm with rfl | hm
        · exact hmid.symm
        · exact absurd (List.mem_map.2 ⟨m, hm, hmid⟩) hrest
      rw [List.foldl_cons, foldWrite_not_mem g rest _ x hrest, if_pos hx1, hx1]

theorem nodeDepthsLoop_not_mem (data : LineageData) :
    ∀ (comps : List (List Node)) (fd : String → Option Nat) (off : Nat) (x : String),
      (∀ comp ∈ comps, x ∉ nodeIds comp) →
      nodeDepthsLoop data comps fd off x = fd x := by
  intro comps
  induction comps with
  | nil => intro fd off x _; rfl
  | cons c0 rest ih =>
    intro fd off x hall
    have heq : nodeDepthsLoop data (c0 :: rest) fd off
        = nodeDepthsLoop data rest
          (c0.foldl (fun m n => fun y =>
            if y = n.id then some ((compDepthMap data c0 n.id).getD 0 + off) else m y) fd)
          (off + compMaxDepth data c0 + 2) := by
      simp only [nodeDepthsLoop]
    rw [heq, ih _ _ x (fun comp hc => hall comp (List.mem_cons_of_mem _ hc))]
    exact foldWrite_not_mem (fun s => (compDepthMap data c0 s).getD 0 + off) c0 fd x
      (hall c0 (List.mem_cons_self _ _))

theorem nodeDepthsLoop_lookup (data : LineageData) :
    ∀ (comps : List (List Node)) (fd : String → Option Nat) (off k : Nat)
      (comp : List Node) (o : Nat) (x : String),
      (offsetsLoop data comps off).get? k = some (comp, o) →
      x ∈ nodeIds comp →
      (∀ j c2 o2, k < j → (offsetsLoop data comps off).get? j = some (c2, o2) →
        x ∉ nodeIds c2) →
      nodeDepthsLoop data comps fd off x
        = some ((compDepthMap data comp x).getD 0 + o) := by
  intro comps
  induction comps with
  | nil => intro fd off k comp o x h1; simp [offsetsLoop] at h1
  | cons c0 rest ih =>
    intro fd off k comp o x h1 hx hlater
    have heq : nodeDepthsLoop data (c0 :: rest) fd off
        = nodeDepthsLoop data rest
          (c0.foldl (fun m n => fun y =>
            if y = n.id then some ((compDepthMap data c0 n.id).getD 0 + off) else m y) fd)
          (off + compMaxDepth data c0 + 2) := by
      simp only [nodeDepthsLoop]
    rw [heq]
    cases k with
    | zero =>
      obtain ⟨ho, hc⟩ := offsetsLoop_head data (c0 :: rest) off comp o h1
      rw [List.get?_cons_zero] at hc
      obtain rfl : c0 = comp := by injection hc
      subst ho
      rw [nodeDepthsLoop_not_mem data rest _ _ x ?later]
      · exact foldWrite_mem (fun s => (compDepthMap data c0 s).getD 0 + o) c0 fd x hx
      case later =>
        intro comp2 hc2
        obtain ⟨j, hj⟩ := List.mem_iff_get?.1 hc2
        obtain ⟨o2, ho2⟩ := offsetsLoop_total data rest (o + compMaxDepth data c0 + 2) j comp2 hj
        refine hlater (j + 1) comp2 o2 (by omega) ?_
        simpa [offsetsLoop] using ho2
    | succ k =>
      have h1b : (offsetsLoop data rest (off + compMaxDepth data c0 + 2)).get? k
          = some (comp, o) := by
        simpa [offsetsLoop] using h1
      have hlater2 : ∀ j c2 o2, k < j →
          (offsetsLoop data rest (off + compMaxDepth data c0 + 2)).get? j = some (c2, o2) →
          x ∉ nodeIds c2 := by
        intro j c2 o2 hkj hj
        exact hlater (j + 1) c2 o2 (by omega) (by simpa [offsetsLoop] using hj)
      exact ih _ _ k comp o x h1b hx hlater2

theorem componentOffsets_nil (data : LineageData) (h : data.nodes = []) :
    componentOffsets data = [] := by
  unfold componentOffsets offsetsLoop sortedComponents components
  rw [h]
  rfl

theorem nodeDepths_lookup_of_comp (data : LineageData) (comp : List Node) (k o : Nat)
    (x : String) (hk : (componentOffsets data).get? k = some (comp, o))
    (hx : x ∈ nodeIds comp) :
    nodeDepths data x = some ((compDepthMap data comp x).getD 0 + o) := by
  have hne : ¬(data.nodes.isEmpty = true) := by
    intro hh
    rw [componentOffsets_nil data (List.isEmpty_iff.1 hh)] at hk
    simp at hk
  unfold nodeDepths
  rw [if_neg hne]
  apply nodeDepthsLoop_lookup data (sortedComponents data) _ 0 k comp o x hk hx
  intro j c2 o2 hkj hj
  have hcj : (sortedComponents data).get? j = some c2 := offsetsLoop_fst data _ 0 j c2 o2 hj
  have hck : (sortedComponents data).get? k = some comp := offsetsLoop_fst data _ 0 k comp o hk
  have hdisj := sortedComponents_disjoint data
  rw [List.pairwise_iff_get] at hdisj
  obtain ⟨hkl, hgk⟩ := List.get?_eq_some.1 hck
  obtain ⟨hjl, hgj⟩ := List.get?_eq_some.1 hcj
  have hd := hdisj ⟨k, hkl⟩ ⟨j, hjl⟩ hkj
  rw [hgk, hgj] at hd
  intro hx2
  obtain ⟨m1, hm1, hm1id⟩ := List.mem_map.1 hx
  obtain ⟨m2, hm2, hm2id⟩ := List.mem_map.1 hx2
  exact hd m1 hm1 m2 hm2 (by rw [hm1id, hm2id])

end Lineage

namespace Lineage

/-- C2: the depth computation always terminates and is total — for every
input graph (cycles and self-loops included) the topological queue drains,
every node id is assigned exactly one natural-number (hence non-negative)
depth, a component node the queue pass never assigned gets component depth 0
(appearing in `finalDepths` as exactly its component's offset), and in the
two-node cycle `A→B→A` both nodes receive depth 0. -/
theorem depth_totality :
    (∀ (data : LineageData), ∀ n ∈ data.nodes, ∃ d, nodeDepths data n.id = some d)
    ∧ (∀ (data : LineageData) (comp : List Node), (compFinalState data comp).queue = [])
    ∧ (∀ (data : LineageData) (comp : List Node) (k o : Nat),
        (componentOffsets data).get? k = some (comp, o) → ∀ n ∈ comp,
        compDepthMap data comp n.id = none → nodeDepths data n.id = some o)
    ∧ (nodeDepths Gcyc "A" = some 0 ∧ nodeDepths Gcyc "B" = some 0) := by
  refine ⟨?_, ?_, ?_, by decide, by decide⟩
  · intro data n hn
    obtain ⟨comp, hc, m, hm, hmid⟩ := sortedComponents_cover data n hn
    obtain ⟨k, hk⟩ := List.mem_iff_get?.1 hc
    obtain ⟨o, ho⟩ := offsetsLoop_total data (sortedComponents data) 0 k comp hk
    refine ⟨(compDepthMap data comp n.id).getD 0 + o, ?_⟩
    exact nodeDepths_lookup_of_comp data comp k o n.id ho
      (List.mem_map.2 ⟨m, hm, hmid⟩)
  · intro data comp
    exact compFinalState_queue data comp
  · intro data comp k o hk n hn hnone
    have h2 := nodeDepths_lookup_of_comp data comp k o n.id hk
      (List.mem_map.2 ⟨n, hn, rfl⟩)
    rw [hnone] at h2
    simpa using h2

/-- Witness for C2: instantiated at the two-node cycle `Gcyc`, node `A` gets
a defined depth and the component queue is drained. -/
theorem depth_totality_witness :
    (∃ d, nodeDepths Gcyc "A" = some d)
    ∧ (compFinalState Gcyc [tNode "A", tNode "B"]).queue = [] :=
  ⟨depth_totality.1 Gcyc (tNode "A") (by decide),
    depth_totality.2.1 Gcyc [tNode "A", tNode "B"]⟩

end Lineage

namespace Lineage

/-! ## Edge-counting helpers for the topological invariant (C1) -/

theorem procCount_nil (E : List Edge) (x : String) : procCount E [] x = 0 := by
  unfold procCount
  rw [← List.countP_eq_length_filter, List.countP_eq_zero]
  intro e _
  simp

theorem procCount_le_indeg0 (E : List Edge) (processed : List String) (x : String) :
    procCount E processed x ≤ indeg0 E x := by
  unfold procCount indeg0
  rw [← List.countP_eq_length_filter, ← List.countP_eq_length_filter]
  apply List.countP_mono_left
  intro e _ h
  simp only [Bool.and_eq_true, decide_eq_true_eq] at h
  simpa using h.1

theorem procCount_append (E : List Edge) (processed : List String) (u x : String)
    (hu : u ∉ processed) :
    procCount E (processed ++ [u]) x = procCount E processed x + outCount E u x := by
  unfold procCount outCount
  rw [← List.countP_eq_length_filter, ← List.countP_eq_length_filter,
    ← List.countP_eq_length_filter]
  induction E with
  | nil => rfl
  | cons e rest ih =>
    rw [List.countP_cons, List.countP_cons, List.countP_cons]
    have hcase : (if (decide (e.targetNodeId = x)
          && (processed ++ [u]).contains e.sourceNodeId) = true then 1 else 0)
        = (if (decide (e.targetNodeId = x)
            && processed.contains e.sourceNodeId) = true then 1 else 0)
          + (if (decide (e.sourceNodeId = u) && decide (e.targetNodeId = x)) = true
              then 1 else 0) := by
      by_cases h1 : e.targetNodeId = x
      · by_cases h2 : e.sourceNodeId = u
        · by_cases hm : e.sourceNodeId ∈ processed
          · exact absurd (h2 ▸ hm) hu
          · simp [h1, h2, hm, hu]
        · by_cases hm : e.sourceNodeId ∈ processed
          · simp [h1, h2, hm]
          · simp [h1, h2, hm]
      · simp [h1]
    omega

theorem procCount_full (E : List Edge) (processed : List String) (x : String)
    (h : procCount E processed x = indeg0 E x) :
    ∀ e ∈ E, e.targetNodeId = x → e.sourceNodeId ∈ processed := by
  intro e he htgt
  by_contra hsrc
  have hlt : E.countP (fun e => e.targetNodeId = x && processed.contains e.sourceNodeId)
      < E.countP (fun e => decide (e.targetNodeId = x)) := by
    refine countP_lt_of_mem e he ?_ ?_ ?_
    · simpa using htgt
    · simp [htgt, hsrc]
    · intro a _ hpa
      simp only [Bool.and_eq_true, decide_eq_true_eq] at hpa
      simpa using hpa.1
  unfold procCount indeg0 at h
  rw [← List.countP_eq_length_filter, ← List.countP_eq_length_filter] at h
  omega

theorem outCount_pos_iff (E : List Edge) (u x : String) :
    0 < outCount E u x ↔ ∃ e ∈ E, e.sourceNodeId = u ∧ e.targetNodeId = x := by
  unfold outCount
  rw [← List.countP_eq_length_filter]
  rw [Nat.pos_iff_ne_zero]
  constructor
  · intro h
    by_contra hne
    push_neg at hne
    apply h
    rw [List.countP_eq_zero]
    intro e he
    simp only [Bool.and_eq_true, decide_eq_true_eq, not_and]
    intro h1 h2
    exact absurd h2 (hne e he h1)
  · rintro ⟨e, he, h1, h2⟩ hzero
    rw [List.countP_eq_zero] at hzero
    have h3 := hzero e he
    simp [h1, h2] at h3

theorem outCount_self_zero (E : List Edge) (processed : List String) (u : String)
    (hall : ∀ e ∈ E, e.targetNodeId = u → e.sourceNodeId ∈ processed)
    (hu : u ∉ processed) : outCount E u u = 0 := by
  unfold outCount
  rw [← List.countP_eq_length_filter, List.countP_eq_zero]
  intro e he
  simp only [Bool.and_eq_true, decide_eq_true_eq, not_and]
  intro h1 h2
  exact absurd (h1 ▸ hall e he h2) hu

theorem nbrs_count (key : String → Nat) (E : List Edge) (comp : List Node) (u : String)
    (hu : u ∈ nodeIds comp) (x : String) :
    (sortByKey key (compAdj E comp u)).count x = outCount E u x := by
  rw [(sortByKey_perm key (compAdj E comp u)).count_eq x]
  unfold compAdj
  rw [if_pos hu]
  unfold outCount
  rw [← List.countP_eq_length_filter]
  induction E with
  | nil => rfl
  | cons e rest ih =>
    rw [List.countP_cons, List.filter_cons]
    by_cases h2 : e.sourceNodeId = u
    · rw [if_pos (by simpa using h2)]
      rw [List.map_cons, List.count_cons]
      by_cases h3 : e.targetNodeId = x
      · simp only [h2, h3, decide_True, Bool.and_self, if_true, beq_iff_eq, if_pos h3]
        omega
      · simp only [h2, decide_True, Bool.true_and, beq_iff_eq, if_neg h3]
        rw [if_neg (by simpa using h3)]
        omega
    · rw [if_neg (by simpa using h2)]
      rw [if_neg (by simp [h2])]
      exact ih

theorem nbrs_mem (key : String → Nat) (E : List Edge) (comp : List Node) (u : String)
    (hu : u ∈ nodeIds comp) (x : String) :
    x ∈ sortByKey key (compAdj E comp u) ↔ 0 < outCount E u x := by
  rw [← nbrs_count key E comp u hu x]
  exact List.count_pos_iff.symm

end Lineage

namespace Lineage

/-! ## Characterizing one relaxation and a full neighbor fold (C1) -/

theorem relax_spec (d : Nat) (st : TopoSt) (v : String) (kv : Int)
    (h : lookupA st.inDeg v = some kv) :
    (relax d st v).processed = st.processed
    ∧ (∀ x, (relax d st v).depths x
        = if x = v then some (max ((st.depths v).getD 0) (d + 1)) else st.depths x)
    ∧ (∀ x, lookupA (relax d st v).inDeg x
        = if x = v then some (kv - 1) else lookupA st.inDeg x)
    ∧ (relax d st v).queue = (if kv - 1 = 0 then st.queue ++ [v] else st.queue) := by
  unfold relax
  rw [h]
  dsimp only
  refine ⟨rfl, fun x => rfl, ?_, rfl⟩
  intro x
  rw [lookupA_setA]

theorem foldRelax_spec (d : Nat) :
    ∀ (L : List String) (st : TopoSt),
      (∀ v ∈ L, ∃ k, lookupA st.inDeg v = some k) →
      ((L.foldl (relax d) st).processed = st.processed)
      ∧ (∀ x, (L.foldl (relax d) st).depths x =
          if x ∈ L then some (max ((st.depths x).getD 0) (d + 1)) else st.depths x)
      ∧ (∀ x k, lookupA st.inDeg x = some k →
          lookupA (L.foldl (relax d) st).inDeg x = some (k - (L.count x : Int)))
      ∧ (∀ x, lookupA st.inDeg x = none → lookupA (L.foldl (relax d) st).inDeg x = none)
      ∧ (∃ P, (L.foldl (relax d) st).queue = st.queue ++ P ∧ P.Nodup
          ∧ (∀ x, x ∈ P ↔ ∃ k, lookupA st.inDeg x = some k ∧ 1 ≤ k
              ∧ k ≤ (L.count x : Int))) := by
  intro L
  induction L with
  | nil =>
    intro st hex
    refine ⟨rfl, ?_, ?_, fun x h => h, ⟨[], by simp, List.nodup_nil, ?_⟩⟩
    · intro x
      rw [if_neg (List.not_mem_nil x)]
      rfl
    · intro x k hk
      rw [List.count_nil]
      simpa using hk
    · intro x
      constructor
      · intro hx
        exact absurd hx (List.not_mem_nil x)
      · rintro ⟨k, _, h1, h2⟩
        rw [List.count_nil] at h2
        omega
  | cons v L2 ih =>
    intro st hex
    obtain ⟨kv, hkv⟩ := hex v (List.mem_cons_self _ _)
    obtain ⟨r1, r2, r3, r4⟩ := relax_spec d st v kv hkv
    have hex2 : ∀ w ∈ L2, ∃ k, lookupA (relax d st v).inDeg w = some k := by
      intro w hw
      obtain ⟨k2, hk2⟩ := hex w (List.mem_cons_of_mem _ hw)
      rw [r3 w]
      by_cases hwv : w = v
      · exact ⟨kv - 1, by rw [if_pos hwv]⟩
      · exact ⟨k2, by rw [if_neg hwv]; exact hk2⟩
    obtain ⟨f1, f2, f3, f4, P2, hq2, hnd2, hmem2⟩ := ih (relax d st v) hex2
    rw [List.foldl_cons]
    refine ⟨?_, ?_, ?_, ?_, ?_⟩
    · rw [f1, r1]
    · intro x
      rw [f2 x]
      by_cases hxL : x ∈ L2
      · rw [if_pos hxL, if_pos (List.mem_cons_of_mem _ hxL), r2 x]
        by_cases hxv : x = v
        · subst hxv
          rw [if_pos rfl]
          simp only [Option.getD_some]
          rw [max_assoc, max_self]
        · rw [if_neg hxv]
      · rw [if_neg hxL, r2 x]
        by_cases hxv : x = v
        · rw [if_pos hxv, if_pos (by rw [hxv]; exact List.mem_cons_self _ _), hxv]
        · rw [if_neg hxv, if_neg (by
            intro hc
            rcases List.mem_cons.1 hc with h | h
            · exact hxv h
            · exact hxL h)]
    · intro x k hk
      by_cases hxv : x = v
      · subst hxv
        rw [hkv] at hk
        obtain rfl : kv = k := by injection hk
        have hf := f3 x (kv - 1) (by rw [r3 x, if_pos rfl])
        rw [hf, List.count_cons_self]
        congr 1
        push_cast
        ring
      · have hf := f3 x k (by rw [r3 x, if_neg hxv]; exact hk)
        rw [hf]
        have hbeq : (v == x) = false := by
          rw [beq_eq_false_iff_ne]
          exact fun h => hxv h.symm
        rw [List.count_cons, hbeq]
        simp
    · intro x hk
      have hxv : ¬ x = v := by
        intro h
        rw [h, hkv] at hk
        exact Option.noConfusion hk
      exact f4 x (by rw [r3 x, if_neg hxv]; exact hk)
    · refine ⟨(if kv - 1 = 0 then [v] else []) ++ P2, ?_, ?_, ?_⟩
      · rw [hq2, r4]
        by_cases hk0 : kv - 1 = 0
        · rw [if_pos hk0, if_pos hk0, List.append_assoc]
        · rw [if_neg hk0, if_neg hk0]
          simp
      · by_cases hk0 : kv - 1 = 0
        · rw [if_pos hk0]
          refine List.Nodup.append (List.nodup_singleton v) hnd2 ?_
          intro x hx1 hx2
          have hx1v : x = v := List.mem_singleton.1 hx1
          subst hx1v
          obtain ⟨k2, hk2, h1, h2⟩ := (hmem2 x).1 hx2
          rw [r3 x, if_pos rfl] at hk2
          obtain rfl : kv - 1 = k2 := by injection hk2
          omega
        · rw [if_neg hk0]
          simpa using hnd2
      · intro x
        constructor
        · intro hx
          rcases List.mem_append.1 hx with hx | hx
          · by_cases hk0 : kv - 1 = 0
            · rw [if_pos hk0] at hx
              have hx1v : x = v := List.mem_singleton.1 hx
              subst hx1v
              refine ⟨kv, hkv, by omega, ?_⟩
              rw [List.count_cons_self]
              push_cast
              omega
            · rw [if_neg hk0] at hx
              exact absurd hx (List.not_mem_nil x)
          · obtain ⟨k2, hk2, h1, h2⟩ := (hmem2 x).1 hx
            rw [r3 x] at hk2
            by_cases hxv : x = v
            · subst hxv
              rw [if_pos rfl] at hk2
              obtain rfl : kv - 1 = k2 := by injection hk2
              refine ⟨kv, hkv, by omega, ?_⟩
              rw [List.count_cons_self]
              push_cast at h2 ⊢
              omega
            · rw [if_neg hxv] at hk2
              refine ⟨k2, hk2, h1, ?_⟩
              have hbeq : (v == x) = false := by
                rw [beq_eq_false_iff_ne]
                exact fun h => hxv h.symm
              rw [List.count_cons, hbeq]
              simpa using h2
        · rintro ⟨k, hk, h1, h2⟩
          by_cases hxv : x = v
          · subst hxv
            rw [hkv] at hk
            obtain rfl : kv = k := by injection hk
            rw [List.count_cons_self] at h2
            by_cases hk0 : kv - 1 = 0
            · apply List.mem_append_left
              rw [if_pos hk0]
              exact List.mem_singleton.2 rfl
            · apply List.mem_append_right
              refine (hmem2 x).2 ⟨kv - 1, ?_, by omega, ?_⟩
              · rw [r3 x, if_pos rfl]
              · push_cast at h2 ⊢
                omega
          · apply List.mem_append_right
            refine (hmem2 x).2 ⟨k, ?_, h1, ?_⟩
            · rw [r3 x, if_neg hxv]
              exact hk
            · have hbeq : (v == x) = false := by
                rw [beq_eq_false_iff_ne]
                exact fun h => hxv h.symm
              rw [List.count_cons, hbeq] at h2
              simpa using h2

end Lineage

namespace Lineage

/-! ## The topological invariant is preserved by one dequeue (C1) -/

theorem topoStep_inv (key : String → Nat) (comp : List Node) (E : List Edge)
    (hE : ∀ e ∈ E, e.sourceNodeId ∈ nodeIds comp ∧ e.targetNodeId ∈ nodeIds comp)
    (s : TopoSt) (u : String) (rest : List String)
    (hq : s.queue = u :: rest) (hinv : TopoInv comp E s) :
    TopoInv comp E (topoStep key (compAdj E comp) { s with queue := rest } u) := by
  obtain ⟨nodupP, nodupQ, disjPQ, memP, memQ, deg, memIff, mono⟩ := hinv
  have huQ : u ∈ s.queue := by rw [hq]; exact List.mem_cons_self _ _
  have huIds : u ∈ nodeIds comp := memQ u huQ
  have huNP : u ∉ s.processed := fun hc => (disjPQ u hc) huQ
  have hproc_u : procCount E s.processed u = indeg0 E u :=
    (memIff u huIds).1 (Or.inr huQ)
  have hAllInU : ∀ e ∈ E, e.targetNodeId = u → e.sourceNodeId ∈ s.processed :=
    procCount_full E s.processed u hproc_u
  have hself : outCount E u u = 0 := outCount_self_zero E s.processed u hAllInU huNP
  have hrestQ : ∀ x ∈ rest, x ∈ s.queue := by
    intro x hx
    rw [hq]
    exact List.mem_cons_of_mem _ hx
  have hrestNodup : rest.Nodup := by
    rw [hq] at nodupQ
    exact (List.nodup_cons.1 nodupQ).2
  have huRest : u ∉ rest := by
    rw [hq] at nodupQ
    exact (List.nodup_cons.1 nodupQ).1
  have hcount : ∀ x, (sortByKey key (compAdj E comp u)).count x = outCount E u x :=
    fun x => nbrs_count key E comp u huIds x
  have hmemN : ∀ x, x ∈ sortByKey key (compAdj E comp u) ↔ 0 < outCount E u x :=
    fun x => nbrs_mem key E comp u huIds x
  have hexN : ∀ v ∈ sortByKey key (compAdj E comp u),
      ∃ k, lookupA (TopoSt.mk s.depths s.inDeg rest (s.processed ++ [u])).inDeg v = some k := by
    intro v hv
    obtain ⟨e, he, hsrc, htgt⟩ := (outCount_pos_iff E u v).1 ((hmemN v).1 hv)
    have hvIds : v ∈ nodeIds comp := htgt ▸ (hE e he).2
    refine ⟨(indeg0 E v : Int) - (procCount E s.processed v : Int), ?_⟩
    show lookupA s.inDeg v = _
    rw [deg v, if_pos hvIds]
  have heq : topoStep key (compAdj E comp) { s with queue := rest } u
      = (sortByKey key (compAdj E comp u)).foldl (relax ((s.depths u).getD 0))
          (TopoSt.mk s.depths s.inDeg rest (s.processed ++ [u])) := rfl
  rw [heq]
  obtain ⟨f1, f2, f3, f4, P, hqP, hndP, hmemP⟩ :=
    foldRelax_spec ((s.depths u).getD 0) (sortByKey key (compAdj E comp u))
      (TopoSt.mk s.depths s.inDeg rest (s.processed ++ [u])) hexN
  dsimp only at f1 f2 f3 f4 hqP hmemP
  -- basic facts about P
  have hP0 : ∀ x ∈ P, x ∉ s.queue ∧ x ∉ s.processed ∧ x ∈ nodeIds comp := by
    intro x hx
    obtain ⟨k, hk, h1, h2⟩ := (hmemP x).1 hx
    have hxIds : x ∈ nodeIds comp := by
      by_contra hc
      rw [deg x, if_neg hc] at hk
      exact Option.noConfusion hk
    rw [deg x, if_pos hxIds] at hk
    have hkval : (indeg0 E x : Int) - (procCount E s.processed x : Int) = k := by
      injection hk
    constructor
    · intro hc
      have h3 := (memIff x hxIds).1 (Or.inr hc)
      omega
    constructor
    · intro hc
      have h3 := (memIff x hxIds).1 (Or.inl hc)
      omega
    · exact hxIds
  have hfrozen : ∀ w, outCount E u w = 0 →
      ((sortByKey key (compAdj E comp u)).foldl (relax ((s.depths u).getD 0))
        (TopoSt.mk s.depths s.inDeg rest (s.processed ++ [u])) : TopoSt).depths w
        = s.depths w := by
    intro w hw
    rw [f2 w, if_neg]
    intro hc
    have := (hmemN w).1 hc
    omega
  have hproc_frozen : ∀ w ∈ s.processed, outCount E u w = 0 := by
    intro w hw
    by_contra hc
    obtain ⟨e, he, hsrc, htgt⟩ := (outCount_pos_iff E u w).1 (Nat.pos_of_ne_zero hc)
    have hfull := procCount_full E s.processed w
      ((memIff w (memP w hw)).1 (Or.inl hw)) e he htgt
    rw [hsrc] at hfull
    exact huNP hfull
  have hmono_depth : ∀ x, depthD s x ≤
      (((sortByKey key (compAdj E comp u)).foldl (relax ((s.depths u).getD 0))
        (TopoSt.mk s.depths s.inDeg rest (s.processed ++ [u])) : TopoSt).depths x).getD 0 := by
    intro x
    rw [f2 x]
    by_cases hx : x ∈ sortByKey key (compAdj E comp u)
    · rw [if_pos hx]
      simp only [Option.getD_some]
      exact le_max_left _ _
    · rw [if_neg hx]
      exact le_refl _
  refine ⟨?_, ?_, ?_, ?_, ?_, ?_, ?_, ?_⟩
  · -- processed nodup
    rw [f1]
    refine List.Nodup.append nodupP (List.nodup_singleton u) ?_
    intro x hx hxu
    exact huNP ((List.mem_singleton.1 hxu) ▸ hx)
  · -- queue nodup
    rw [hqP]
    refine List.Nodup.append hrestNodup hndP ?_
    intro x hx hxP
    exact (hP0 x hxP).1 (hrestQ x hx)
  · -- disjoint
    rw [f1, hqP]
    intro x hx hxq
    rcases List.mem_append.1 hxq with hxr | hxP
    · rcases List.mem_append.1 hx with hxp | hxu
      · exact disjPQ x hxp (hrestQ x hxr)
      · exact huRest ((List.mem_singleton.1 hxu) ▸ hxr)
    · rcases List.mem_append.1 hx with hxp | hxu
      · exact (hP0 x hxP).2.1 hxp
      · exact (hP0 x hxP).1 ((List.mem_singleton.1 hxu) ▸ huQ)
  · -- processed ⊆ ids
    rw [f1]
    intro x hx
    rcases List.mem_append.1 hx with hxp | hxu
    · exact memP x hxp
    · exact (List.mem_singleton.1 hxu) ▸ huIds
  · -- queue ⊆ ids
    rw [hqP]
    intro x hx
    rcases List.mem_append.1 hx with hxr | hxP
    · exact memQ x (hrestQ x hxr)
    · exact (hP0 x hxP).2.2
  · -- degree formula
    intro x
    rw [f1]
    by_cases hxIds : x ∈ nodeIds comp
    · rw [if_pos hxIds]
      have hlk : lookupA s.inDeg x
          = some ((indeg0 E x : Int) - (procCount E s.processed x : Int)) := by
        rw [deg x, if_pos hxIds]
      rw [f3 x _ hlk, hcount x, procCount_append E s.processed u x huNP]
      congr 1
      push_cast
      ring
    · rw [if_neg hxIds]
      exact f4 x (by rw [deg x, if_neg hxIds])
  · -- membership iff degree exhausted
    rw [f1, hqP]
    intro x hxIds
    rw [procCount_append E s.processed u x huNP]
    have houtzero_of_all : (∀ e ∈ E, e.targetNodeId = x → e.sourceNodeId ∈ s.processed)
        → outCount E u x = 0 := by
      intro hfull
      by_contra hc
      obtain ⟨e, he, hsrc, htgt⟩ := (outCount_pos_iff E u x).1 (Nat.pos_of_ne_zero hc)
      exact huNP (hsrc ▸ hfull e he htgt)
    constructor
    · intro hx
      rcases hx with hx | hx
      · rcases List.mem_append.1 hx with hxp | hxu
        · have h3 := (memIff x hxIds).1 (Or.inl hxp)
          have h4 := houtzero_of_all (procCount_full E s.processed x h3)
          omega
        · have hxu2 := List.mem_singleton.1 hxu
          subst hxu2
          omega
      · rcases List.mem_append.1 hx with hxr | hxP
        · have h3 := (memIff x hxIds).1 (Or.inr (hrestQ x hxr))
          have h4 := houtzero_of_all (procCount_full E s.processed x h3)
          omega
        · obtain ⟨k, hk, h1, h2⟩ := (hmemP x).1 hxP
          rw [deg x, if_pos hxIds] at hk
          have hkval : (indeg0 E x : Int) - (procCount E s.processed x : Int) = k := by
            injection hk
          rw [hcount x] at h2
          have h5 := procCount_le_indeg0 E (s.processed ++ [u]) x
          rw [procCount_append E s.processed u x huNP] at h5
          omega
    · intro hsum
      by_cases hout : outCount E u x = 0
      · have h3 : procCount E s.processed x = indeg0 E x := by omega
        rcases (memIff x hxIds).2 h3 with hxp | hxq
        · exact Or.inl (List.mem_append_left _ hxp)
        · rw [hq] at hxq
          rcases List.mem_cons.1 hxq with rfl | hxr
          · exact Or.inl (List.mem_append_right _ (List.mem_singleton.2 rfl))
          · exact Or.inr (List.mem_append_left _ hxr)
      · refine Or.inr (List.mem_append_right _ ?_)
        refine (hmemP x).2 ⟨(indeg0 E x : Int) - (procCount E s.processed x : Int), ?_, ?_, ?_⟩
        · rw [deg x, if_pos hxIds]
        · omega
        · rw [hcount x]
          omega
  · -- edge monotonicity
    rw [f1]
    intro w hw e he hsrc
    rcases List.mem_append.1 hw with hwp | hwu
    · have hfr := hfrozen w (hproc_frozen w hwp)
      have hold := mono w hwp e he hsrc
      unfold depthD
      rw [hfr]
      exact le_trans hold (hmono_depth e.targetNodeId)
    · have hwu2 := List.mem_singleton.1 hwu
      subst hwu2
      have htgtN : e.targetNodeId ∈ sortByKey key (compAdj E comp w) := by
        rw [hmemN e.targetNodeId]
        rw [outCount_pos_iff]
        exact ⟨e, he, hsrc, rfl⟩
      have hfrw := hfrozen w hself
      unfold depthD
      rw [hfrw, f2 e.targetNodeId, if_pos htgtN]
      simp only [Option.getD_some]
      exact le_max_right _ _

end Lineage

namespace Lineage

/-- The invariant is preserved over the whole fuelled run. -/
theorem topoRunF_inv (key : String → Nat) (comp : List Node) (E : List Edge)
    (hE : ∀ e ∈ E, e.sourceNodeId ∈ nodeIds comp ∧ e.targetNodeId ∈ nodeIds comp) :
    ∀ (fuel : Nat) (s : TopoSt), TopoInv comp E s →
      TopoInv comp E (topoRunF key (compAdj E comp) fuel s) := by
  intro fuel
  induction fuel with
  | zero => intro s h; exact h
  | succ n ih =>
    intro s h
    rw [topoRunF]
    cases hq : s.queue with
    | nil => exact h
    | cons u rest =>
      exact ih _ (topoStep_inv key comp E hE s u rest hq h)

/-- Seeding every component node with in-degree `0`. -/
theorem lookupA_foldZero (comp : List Node) (m0 : List (String × Int)) (x : String) :
    lookupA (comp.foldl (fun m n => setA m n.id 0) m0) x
      = if x ∈ nodeIds comp then some 0 else lookupA m0 x := by
  induction comp generalizing m0 with
  | nil => simp [nodeIds]
  | cons n rest ih =>
    rw [List.foldl_cons, ih]
    by_cases hr : x ∈ nodeIds rest
    · have h2 : x ∈ nodeIds (n :: rest) := List.mem_cons_of_mem _ hr
      rw [if_pos hr, if_pos h2]
    · rw [if_neg hr, lookupA_setA]
      by_cases hn : x = n.id
      · have h2 : x ∈ nodeIds (n :: rest) := List.mem_cons.2 (Or.inl hn)
        rw [if_pos hn, if_pos h2]
      · have h2 : x ∉ nodeIds (n :: rest) := by
          intro hc
          rcases List.mem_cons.1 hc with h | h
          · exact hn h
          · exact hr h
        rw [if_neg hn, if_neg h2]

/-- The in-degree accumulation adds the number of in-edges to a present key. -/
theorem lookupA_foldInc_some (E : List Edge) (m0 : List (String × Int)) (x : String)
    (k : Int) (hx : lookupA m0 x = some k) :
    lookupA (E.foldl
        (fun m e => setA m e.targetNodeId ((lookupA m e.targetNodeId).getD 0 + 1)) m0) x
      = some (k + (indeg0 E x : Int)) := by
  induction E generalizing m0 k with
  | nil =>
    rw [List.foldl_nil, hx]
    simp [indeg0]
  | cons e rest ih =>
    rw [List.foldl_cons]
    by_cases ht : e.targetNodeId = x
    · have hset : lookupA (setA m0 e.targetNodeId ((lookupA m0 e.targetNodeId).getD 0 + 1)) x
          = some (k + 1) := by
        rw [lookupA_setA, if_pos ht.symm, ht, hx]
        simp
      rw [ih _ _ hset]
      have hind : indeg0 (e :: rest) x = indeg0 rest x + 1 := by
        unfold indeg0
        rw [List.filter_cons]
        simp [ht]
      rw [hind]
      congr 1
      push_cast
      ring
    · have hset : lookupA (setA m0 e.targetNodeId ((lookupA m0 e.targetNodeId).getD 0 + 1)) x
          = some k := by
        rw [lookupA_setA, if_neg (fun h => ht h.symm), hx]
      rw [ih _ _ hset]
      have hind : indeg0 (e :: rest) x = indeg0 rest x := by
        unfold indeg0
        rw [List.filter_cons]
        simp [ht]
      rw [hind]

/-- Keys never targeted stay absent through the in-degree accumulation. -/
theorem lookupA_foldInc_none (E : List Edge) (m0 : List (String × Int)) (x : String)
    (hT : ∀ e ∈ E, e.targetNodeId ≠ x) (hx : lookupA m0 x = none) :
    lookupA (E.foldl
        (fun m e => setA m e.targetNodeId ((lookupA m e.targetNodeId).getD 0 + 1)) m0) x
      = none := by
  induction E generalizing m0 with
  | nil => exact hx
  | cons e rest ih =>
    rw [List.foldl_cons]
    refine ih _ (fun e2 he2 => hT e2 (List.mem_cons_of_mem e he2)) ?_
    rw [lookupA_setA, if_neg (fun h => hT e (List.mem_cons_self e rest) h.symm)]
    exact hx

/-- Membership in the component's restricted edge list. -/
theorem compEdges_mem (edges : List Edge) (comp : List Node) (e : Edge) :
    e ∈ compEdges edges comp ↔
      e ∈ edges ∧ e.sourceNodeId ∈ nodeIds comp ∧ e.targetNodeId ∈ nodeIds comp := by
  unfold compEdges
  rw [List.mem_filter]
  constructor
  · rintro ⟨h1, h2⟩
    simp only [Bool.and_eq_true, List.any_eq_true, decide_eq_true_eq] at h2
    obtain ⟨⟨n1, hn1, hid1⟩, ⟨n2, hn2, hid2⟩⟩ := h2
    exact ⟨h1, hid1 ▸ List.mem_map_of_mem _ hn1, hid2 ▸ List.mem_map_of_mem _ hn2⟩
  · rintro ⟨h1, h2, h3⟩
    refine ⟨h1, ?_⟩
    simp only [Bool.and_eq_true, List.any_eq_true, decide_eq_true_eq]
    obtain ⟨n1, hn1, hid1⟩ := List.mem_map.1 h2
    obtain ⟨n2, hn2, hid2⟩ := List.mem_map.1 h3
    exact ⟨⟨n1, hn1, hid1⟩, ⟨n2, hn2, hid2⟩⟩

/-- The initial `inDegree` map holds exactly the initial in-degrees of the
component's nodes. -/
theorem lookupA_initInDeg (comp : List Node) (E : List Edge)
    (hT : ∀ e ∈ E, e.targetNodeId ∈ nodeIds comp) (x : String) :
    lookupA (initInDeg comp E) x
      = if x ∈ nodeIds comp then some (indeg0 E x : Int) else none := by
  unfold initInDeg
  by_cases hx : x ∈ nodeIds comp
  · rw [if_pos hx]
    have hbase : lookupA (comp.foldl (fun m n => setA m n.id 0) []) x = some 0 := by
      rw [lookupA_foldZero, if_pos hx]
    rw [lookupA_foldInc_some E _ x 0 hbase]
    simp
  · rw [if_neg hx]
    have hbase : lookupA (comp.foldl (fun m n => setA m n.id 0) []) x = none := by
      rw [lookupA_foldZero, if_neg hx]
      rfl
    exact lookupA_foldInc_none E _ x (fun e he h => hx (h ▸ hT e he)) hbase

/-- A node is seeded exactly when it belongs to the component and has no
in-edges there. -/
theorem seeds_mem (comp : List Node) (E : List Edge)
    (hT : ∀ e ∈ E, e.targetNodeId ∈ nodeIds comp) (x : String) :
    x ∈ seeds comp (initInDeg comp E) ↔ x ∈ nodeIds comp ∧ indeg0 E x = 0 := by
  unfold seeds
  rw [List.mem_map]
  constructor
  · rintro ⟨n, hn, rfl⟩
    have hn2 := List.mem_filter.1 hn
    have hx : n.id ∈ nodeIds comp := List.mem_map_of_mem _ hn2.1
    refine ⟨hx, ?_⟩
    have h3 := hn2.2
    rw [lookupA_initInDeg comp E hT n.id, if_pos hx] at h3
    simp only [Option.getD_some, decide_eq_true_eq] at h3
    exact_mod_cast h3
  · rintro ⟨hx, h0⟩
    obtain ⟨n, hn, hid⟩ := List.mem_map.1 hx
    refine ⟨n, List.mem_filter.2 ⟨hn, ?_⟩, hid⟩
    rw [hid, lookupA_initInDeg comp E hT x, if_pos hx, h0]
    simp

/-- Seeds are distinct when the component's ids are. -/
theorem seeds_nodup (comp : List Node) (m : List (String × Int))
    (h : (comp.map (fun n => n.id)).Nodup) : (seeds comp m).Nodup := by
  unfold seeds
  exact List.Nodup.sublist
    (List.Sublist.map _ (List.filter_sublist comp)) h

/-- The invariant holds at the topological loop's initial state. -/
theorem initSt_inv (data : LineageData) (comp : List Node)
    (hnd : (comp.map (fun n => n.id)).Nodup) :
    TopoInv comp (compEdges data.edges comp) (initSt data comp) := by
  have hT : ∀ e ∈ compEdges data.edges comp, e.targetNodeId ∈ nodeIds comp :=
    fun e he => ((compEdges_mem data.edges comp e).1 he).2.2
  have hstEq : initSt data comp = TopoSt.mk
      (fun x => if x ∈ seeds comp (initInDeg comp (compEdges data.edges comp))
        then some 0 else none)
      (initInDeg comp (compEdges data.edges comp))
      (sortByKey (orderKey data.nodes)
        (seeds comp (initInDeg comp (compEdges data.edges comp))))
      [] := rfl
  rw [hstEq]
  refine ⟨?_, ?_, ?_, ?_, ?_, ?_, ?_, ?_⟩
  · exact List.nodup_nil
  · exact ((sortByKey_perm _ _).nodup_iff).2 (seeds_nodup comp _ hnd)
  · intro x hx
    exact absurd hx (List.not_mem_nil x)
  · intro x hx
    exact absurd hx (List.not_mem_nil x)
  · intro x hx
    have hx2 := mem_sortByKey.1 hx
    exact ((seeds_mem comp _ hT x).1 hx2).1
  · intro x
    dsimp only
    rw [lookupA_initInDeg comp _ hT x]
    by_cases hx : x ∈ nodeIds comp
    · rw [if_pos hx, if_pos hx, procCount_nil]
      simp
    · rw [if_neg hx, if_neg hx]
  · intro x hx
    dsimp only
    rw [procCount_nil]
    constructor
    · intro h
      rcases h with h | h
      · exact absurd h (List.not_mem_nil x)
      · have h2 := ((seeds_mem comp _ hT x).1 (mem_sortByKey.1 h)).2
        omega
    · intro h
      exact Or.inr (mem_sortByKey.2 ((seeds_mem comp _ hT x).2 ⟨hx, h.symm⟩))
  · intro u hu
    exact absurd hu (List.not_mem_nil u)

end Lineage

namespace Lineage

/-- The invariant holds at the component's final topological state. -/
theorem compFinalState_inv (data : LineageData) (comp : List Node)
    (hnd : (comp.map (fun n => n.id)).Nodup) :
    TopoInv comp (compEdges data.edges comp) (compFinalState data comp) := by
  have hE : ∀ e ∈ compEdges data.edges comp,
      e.sourceNodeId ∈ nodeIds comp ∧ e.targetNodeId ∈ nodeIds comp := by
    intro e he
    have h := (compEdges_mem data.edges comp e).1 he
    exact ⟨h.2.1, h.2.2⟩
  unfold compFinalState topoRun
  exact topoRunF_inv (orderKey data.nodes) comp (compEdges data.edges comp) hE _ _
    (initSt_inv data comp hnd)

/-- A component edge whose target was dequeued is strictly monotone in the
final per-component depth map. -/
theorem final_edge_mono (data : LineageData) (comp : List Node)
    (hnd : (comp.map (fun n => n.id)).Nodup) (e : Edge)
    (he : e ∈ compEdges data.edges comp)
    (hp : e.targetNodeId ∈ compProcessed data comp) :
    depthD (compFinalState data comp) e.sourceNodeId + 1
      ≤ depthD (compFinalState data comp) e.targetNodeId := by
  have hinv := compFinalState_inv data comp hnd
  have ht : e.targetNodeId ∈ nodeIds comp := ((compEdges_mem data.edges comp e).1 he).2.2
  have h1 : procCount (compEdges data.edges comp) (compFinalState data comp).processed
      e.targetNodeId = indeg0 (compEdges data.edges comp) e.targetNodeId :=
    (hinv.memIff e.targetNodeId ht).1 (Or.inl hp)
  have h2 : e.sourceNodeId ∈ (compFinalState data comp).processed :=
    procCount_full _ _ _ h1 e he rfl
  exact hinv.mono e.sourceNodeId h2 e he rfl

/-- C1 (amended): for every directed edge `u→v` with both endpoints in the
same connected component, if `v` was actually dequeued by the component's
topological pass, then the final depths satisfy
`depth(v) ≥ depth(u) + 1`.  The excepted nodes are exactly the never-dequeued
ones, not only those on a cycle that forced a depth-0 fallback. -/
theorem depth_monotonicity (data : LineageData) (k : Nat) (comp : List Node) (o : Nat)
    (e : Edge) (hk : (componentOffsets data).get? k = some (comp, o))
    (he : e ∈ data.edges)
    (hs : e.sourceNodeId ∈ nodeIds comp) (ht : e.targetNodeId ∈ nodeIds comp)
    (hp : e.targetNodeId ∈ compProcessed data comp) :
    ∃ du dv, nodeDepths data e.sourceNodeId = some du
      ∧ nodeDepths data e.targetNodeId = some dv ∧ du + 1 ≤ dv := by
  have hk2 : (offsetsLoop data (sortedComponents data) 0).get? k = some (comp, o) := hk
  have hg : (sortedComponents data).get? k = some comp :=
    offsetsLoop_fst data (sortedComponents data) 0 k comp o hk2
  have hmemc : comp ∈ sortedComponents data := List.get?_mem hg
  have hnd := sortedComponents_nodup data comp hmemc
  have heC : e ∈ compEdges data.edges comp := (compEdges_mem data.edges comp e).2 ⟨he, hs, ht⟩
  have hmono := final_edge_mono data comp hnd e heC hp
  have h1 := nodeDepths_lookup_of_comp data comp k o e.sourceNodeId hk hs
  have h2 := nodeDepths_lookup_of_comp data comp k o e.targetNodeId hk ht
  refine ⟨_, _, h1, h2, ?_⟩
  have h3 : (compDepthMap data comp e.sourceNodeId).getD 0
      = depthD (compFinalState data comp) e.sourceNodeId := rfl
  have h4 : (compDepthMap data comp e.targetNodeId).getD 0
      = depthD (compFinalState data comp) e.targetNodeId := rfl
  omega

/-- C1 witness: the amended monotonicity theorem applied to the edge `A→B` of
the chain `A→B→C`, whose every node is dequeued; the depths are 0 and 1. -/
theorem depth_monotonicity_witness :
    (componentOffsets Gchain).get? 0 = some ([tNode "A", tNode "B", tNode "C"], 0)
    ∧ cEdge "A" "B" ∈ Gchain.edges
    ∧ "A" ∈ nodeIds [tNode "A", tNode "B", tNode "C"]
    ∧ "B" ∈ nodeIds [tNode "A", tNode "B", tNode "C"]
    ∧ "B" ∈ compProcessed Gchain [tNode "A", tNode "B", tNode "C"]
    ∧ ∃ du dv, nodeDepths Gchain "A" = some du ∧ nodeDepths Gchain "B" = some dv
        ∧ du + 1 ≤ dv :=
  ⟨by decide, by decide, by decide, by decide, by decide,
    depth_monotonicity Gchain 0 [tNode "A", tNode "B", tNode "C"] 0 (cEdge "A" "B")
      (by decide) (by decide) (by decide) (by decide) (by decide)⟩

/-- C1 counterexample to the claim as stated: in `Gc1` the edge `B→C` lies
inside the single component, `C`'s depth was assigned by a genuine relaxation
(`compDepthMap` holds `some 1`, not the depth-0 fallback) and `C` has no
outgoing edge at all, so it sits on no cycle; yet
`depth(C) = 1 < 2 = depth(B) + 1`, violating the claimed monotonicity even
though the claimed exception does not apply. -/
theorem depth_monotonicity_counterexample :
    cEdge "B" "C" ∈ Gc1.edges
    ∧ sortedComponents Gc1 = [compC1]
    ∧ "B" ∈ nodeIds compC1 ∧ "C" ∈ nodeIds compC1
    ∧ nodeDepths Gc1 "B" = some 1 ∧ nodeDepths Gc1 "C" = some 1
    ∧ ¬(1 + 1 ≤ 1)
    ∧ compDepthMap Gc1 compC1 "C" = some 1
    ∧ Gc1.edges.all (fun e => e.sourceNodeId ≠ "C") = true := by
  refine ⟨?_, ?_, ?_, ?_, ?_, ?_, ?_, ?_, ?_⟩ <;> decide

end Lineage
